import Mathlib

/-!
# Roadmap Progression Engine — verification development

A shallow embedding of the roadmap progression engine of
`src/components/Roadmap.tsx` (linear focus state machine) and of the
spatial canvas layout component in the same file (drag relocation, zoom),
together with proofs of the specified properties.

Conventions of the embedding:
* JavaScript arrays become `List`; `Array.prototype.map` with an index
  becomes `mapStepsIdx` / `mapPhasesIdx` (explicit counters).
* `Array.prototype.findIndex` (which returns `-1` on failure) becomes
  `jsFindIndex : (α → Bool) → List α → Int`.
* JavaScript numbers used for canvas coordinates, drag deltas, zoom and pan
  become `ℚ`; linear indices are `Nat`, cast to `Int` where the source
  compares them with possibly-negative values.
* The nondeterministic `uid()` of the source becomes an explicit `newId`
  argument of the insert operations.
* The component-level `current` value (derived with `useMemo` from the first
  incomplete flattened step) becomes `currentRef`.
-/

/-- A step, in the persisted shape of `src/types/index.ts`:
`{id, text, completed, x?, y?}`.  The linear focus machine in the source
declares `Step` without `x`/`y`, but its object spreads preserve those extra
fields at runtime, which this embedding models directly. -/
structure Step where
  id : String
  text : String
  completed : Bool
  x : Option ℚ
  y : Option ℚ
  deriving Repr, DecidableEq

/-- A phase: ordered container of steps (`src/types/index.ts`). -/
structure Phase where
  id : String
  name : String
  steps : List Step
  deriving Repr, DecidableEq

/-- The `FlatRef` record produced by the linear machine's `flatten`
(Roadmap.tsx, the draft defining `linearIndex`). -/
structure FlatRef where
  phaseIndex : Nat
  stepIndex : Nat
  phaseId : String
  stepId : String
  phaseName : String
  text : String
  completed : Bool
  linearIndex : Nat
  deriving Repr, DecidableEq

/-- `steps.map((s, si) => f si s)` with an explicit starting index. -/
def mapStepsIdx (f : Nat → Step → Step) : Nat → List Step → List Step
  | _, [] => []
  | si, s :: rest => f si s :: mapStepsIdx f (si + 1) rest

/-- `phases.map((p, pi) => f pi p)` with an explicit starting index. -/
def mapPhasesIdx (f : Nat → Phase → Phase) : Nat → List Phase → List Phase
  | _, [] => []
  | pi, p :: rest => f pi p :: mapPhasesIdx f (pi + 1) rest

/-- The record pushed by `flatten`'s inner loop body. -/
def mkRef (pi si : Nat) (pid pname : String) (s : Step) (k : Nat) : FlatRef :=
  { phaseIndex := pi, stepIndex := si, phaseId := pid, stepId := s.id
    phaseName := pname, text := s.text, completed := s.completed
    linearIndex := k }

/-- Inner loop of `flatten`: one phase's steps, with running step index `si`
and running linear index `k`. -/
def flattenSteps (pi : Nat) (pid pname : String) : List Step → Nat → Nat → List FlatRef
  | [], _, _ => []
  | s :: rest, si, k => mkRef pi si pid pname s k :: flattenSteps pi pid pname rest (si + 1) (k + 1)

/-- Outer loop of `flatten`: phases from index `pi`, linear counter `k`. -/
def flattenAux : List Phase → Nat → Nat → List FlatRef
  | [], _, _ => []
  | p :: ps, pi, k =>
      flattenSteps pi p.id p.name p.steps 0 k ++ flattenAux ps (pi + 1) (k + p.steps.length)

/-- `flatten(phases)` of the linear machine (Roadmap.tsx): the canonical
linear sequence, assigning each step its 0-based `linearIndex`. -/
def flatten (phases : List Phase) : List FlatRef := flattenAux phases 0 0

/-- JavaScript `Array.prototype.findIndex`: index of the first element
satisfying `p`, or `-1`. -/
def jsFindIndex (p : α → Bool) : List α → Int
  | [] => -1
  | a :: rest =>
      if p a then 0
      else
        let n := jsFindIndex p rest
        if n = -1 then -1 else n + 1

/-- `firstIncompleteIndex(flat)` (Roadmap.tsx):
`flat.findIndex(x => !x.completed)`. -/
def firstIncompleteIndex (flat : List FlatRef) : Int :=
  jsFindIndex (fun x => !x.completed) flat

/-- `allDone(flat)` (Roadmap.tsx):
`flat.length > 0 && flat.every(x => x.completed)`. -/
def allDone (flat : List FlatRef) : Bool :=
  decide (0 < flat.length) && flat.all (fun x => x.completed)

/-- The component's derived `current` value: `flat[currentLinearIndex]`
unless the sequence is empty or every step is complete (`null` → `none`). -/
def currentRef (phases : List Phase) : Option FlatRef :=
  let flat := flatten phases
  let i := firstIncompleteIndex flat
  if flat.length = 0 then none
  else if i = -1 then none
  else flat[i.toNat]?

/-- The completion-rewriting traversal shared by `setFocusByLinearIndex` and
`completeCurrent`: map over all phases and steps, look each position up in
the flattened snapshot of the input, and rewrite `completed` from the found
ref's `linearIndex` and the step's old flag.  Positions that the lookup does
not resolve are returned unchanged, as in the source. -/
def rewriteCompleted (prev : List Phase) (g : Nat → Bool → Bool) : List Phase :=
  let flat := flatten prev
  mapPhasesIdx
    (fun pi p =>
      { p with steps := (mapStepsIdx
            (fun si s =>
              match flat.find? (fun r => r.phaseIndex == pi && r.stepIndex == si) with
              | none => s
              | some ref => { s with completed := g ref.linearIndex s.completed })
            0 p.steps) })
    0 prev

/-- `setFocusByLinearIndex(prev, focusIndex)` (Roadmap.tsx): clamp the target
into `[0, flat.length - 1]` and rewrite every step's `completed` to
`linearIndex < i`. -/
def setFocusByLinearIndex (prev : List Phase) (focusIndex : Int) : List Phase :=
  let flat := flatten prev
  let maxIdx : Int := (flat.length : Int) - 1
  let i : Int := max 0 (min focusIndex maxIdx)
  rewriteCompleted prev (fun li _ => decide ((li : Int) < i))

/-- `completeCurrent()` (Roadmap.tsx): find the current step's linear index
by id, mark every step with `linearIndex <= idx` completed (leaving the rest
as they were), then refocus at the first incomplete index of the result (or
return it unchanged when none remains). -/
def completeCurrent (phases : List Phase) : List Phase :=
  match currentRef phases with
  | none => phases
  | some current =>
      let flatPrev := flatten phases
      let idx := jsFindIndex (fun r => r.stepId == current.stepId) flatPrev
      if idx = -1 then phases
      else
        let after := rewriteCompleted phases (fun li old => if (li : Int) ≤ idx then true else old)
        let newFlat := flatten after
        let newIdx := firstIncompleteIndex newFlat
        if newIdx = -1 then after
        else setFocusByLinearIndex after newIdx

/-- `addStepBefore()` (Roadmap.tsx): splice a fresh step (text `"New step"`,
not completed) into the current phase right before the current step.
`cur` is the component's derived `current`; `newId` stands for `uid()`. -/
def addStepBefore (phases : List Phase) (cur : FlatRef) (newId : String) : List Phase :=
  mapPhasesIdx
    (fun pi p =>
      if pi = cur.phaseIndex then
        { p with steps := (p.steps.take cur.stepIndex
              ++ { id := newId, text := "New step", completed := false, x := none, y := none }
              :: p.steps.drop cur.stepIndex) }
      else p)
    0 phases

/-- `addStepAfter()` (Roadmap.tsx): splice a fresh step right after the
current step. -/
def addStepAfter (phases : List Phase) (cur : FlatRef) (newId : String) : List Phase :=
  mapPhasesIdx
    (fun pi p =>
      if pi = cur.phaseIndex then
        { p with steps := (p.steps.take (cur.stepIndex + 1)
              ++ { id := newId, text := "New step", completed := false, x := none, y := none }
              :: p.steps.drop (cur.stepIndex + 1)) }
      else p)
    0 phases

/-- The `updated` value inside `removeCurrent()`: the current phase with the
current step's id filtered out. -/
def removeCurrentUpdated (phases : List Phase) (cur : FlatRef) : List Phase :=
  mapPhasesIdx
    (fun pi p =>
      if pi = cur.phaseIndex then
        { p with steps := p.steps.filter (fun s => !(s.id == cur.stepId)) }
      else p)
    0 phases

/-- `removeCurrent()` (Roadmap.tsx): drop the current step, then, if steps
remain and one is incomplete, refocus at the first incomplete index. -/
def removeCurrent (phases : List Phase) : List Phase :=
  match currentRef phases with
  | none => phases
  | some current =>
      let updated := removeCurrentUpdated phases current
      let newFlat := flatten updated
      if newFlat.length = 0 then updated
      else
        let newFocusIdx := firstIncompleteIndex newFlat
        if newFocusIdx = -1 then updated
        else setFocusByLinearIndex updated newFocusIdx

/-- The step stored at phase index `pi`, step index `si`. -/
def stepAt (phases : List Phase) (pi si : Nat) : Option Step :=
  phases[pi]?.bind (fun p => p.steps[si]?)

/-- Projection of a roadmap to the `(x, y)` canvas position of every step,
phase by phase. -/
def stepPositions (phases : List Phase) : List (List (Option ℚ × Option ℚ)) :=
  phases.map (fun p => p.steps.map (fun s => (s.x, s.y)))

/-- Projection of a roadmap to the `(id, text, completed)` content of its
steps in linear order. -/
def stepTriples (phases : List Phase) : List (String × String × Bool) :=
  phases.flatMap (fun p => p.steps.map (fun s => (s.id, s.text, s.completed)))

/-- The step ids of a roadmap in linear order. -/
def stepIds (phases : List Phase) : List String :=
  phases.flatMap (fun p => p.steps.map (fun s => s.id))

/-- Total number of steps of a list of phases. -/
def sumLen (phases : List Phase) : Nat :=
  (phases.map (fun p => p.steps.length)).sum

/-- `true` exactly when the completion flags are monotonic: a (possibly
empty) block of `true` followed by a (possibly empty) block of `false` —
the frontier shape every machine-reachable state has. -/
def frontierShaped : List Bool → Bool
  | [] => true
  | true :: rest => frontierShaped rest
  | false :: rest => rest.all (fun b => !b)

/-! ## Canvas layout component (drag relocation, zoom) -/

namespace Canvas

/-- The `FlatRef` of the canvas draft of `flatten` (Roadmap.tsx, lines
470–505): carries resolved coordinates instead of a linear index. -/
structure FlatRef where
  phaseIndex : Nat
  stepIndex : Nat
  phaseId : String
  stepId : String
  phaseName : String
  text : String
  completed : Bool
  x : ℚ
  y : ℚ
  deriving Repr, DecidableEq

/-- Inner loop of the canvas `flatten`: `x` defaults to `400`, `y` to the
running `defaultY`, which advances by `150` for every step pushed. -/
def flattenSteps (pi : Nat) (pid pname : String) : List Step → Nat → ℚ → List FlatRef
  | [], _, _ => []
  | s :: rest, si, defaultY =>
      { phaseIndex := pi, stepIndex := si, phaseId := pid, stepId := s.id
        phaseName := pname, text := s.text, completed := s.completed
        x := s.x.getD 400, y := s.y.getD defaultY }
        :: flattenSteps pi pid pname rest (si + 1) (defaultY + 150)

/-- Outer loop of the canvas `flatten`: `defaultY` keeps accumulating across
phases (it is declared outside the phase loop in the source). -/
def flattenAux : List Phase → Nat → ℚ → List FlatRef
  | [], _, _ => []
  | p :: ps, pi, defaultY =>
      flattenSteps pi p.id p.name p.steps 0 defaultY
        ++ flattenAux ps (pi + 1) (defaultY + 150 * p.steps.length)

/-- The canvas draft's `flatten(phases)`: `defaultY` starts at `100`. -/
def flatten (phases : List Phase) : List FlatRef := flattenAux phases 0 100

/-- JavaScript `Math.max(...l)` for the nonempty lists it is applied to. -/
def listMax : List ℚ → ℚ
  | [] => 0
  | a :: rest => rest.foldl max a

/-- `canvasBounds` (Roadmap.tsx, lines 767–779): `(width, height)` of the
virtual canvas, `(1200, 800)` floors, content extent plus the item footprint
`(400, 200)`. -/
def canvasBounds (flat : List FlatRef) : ℚ × ℚ :=
  if flat.length = 0 then (1200, 800)
  else
    let maxX := listMax (flat.map (fun s => s.x)) + 400
    let maxY := listMax (flat.map (fun s => s.y)) + 200
    (max 1200 maxX, max 800 maxY)

/-- `handleDragEnd(event)` (Roadmap.tsx, lines 780–802): resolve the dragged
id in the flattened snapshot (returning the state unchanged if it does not
resolve), add the pointer delta to the resolved position — with no clamping
— and store the sum on the step, keyed by id inside the resolved phase. -/
def handleDragEnd (phases : List Phase) (stepId : String) (dx dy : ℚ) : List Phase :=
  match (flatten phases).find? (fun s => s.stepId == stepId) with
  | none => phases
  | some stepRef =>
      let newX := stepRef.x + dx
      let newY := stepRef.y + dy
      mapPhasesIdx
        (fun pi p =>
          if pi = stepRef.phaseIndex then
            { p with steps := (p.steps.map
                  (fun s => if s.id == stepId then { s with x := some newX, y := some newY } else s)) }
          else p)
        0 phases

/-- The canvas component state touched by the zoom handlers: the roadmap
plus the `zoom` and `pan` scalars. -/
structure CanvasState where
  phases : List Phase
  zoom : ℚ
  pan : ℚ × ℚ
  deriving Repr, DecidableEq

/-- `useState(1)`: the initial zoom. -/
def initialZoom : ℚ := 1

/-- `handleZoomIn()`: `z => Math.min(z + 0.1, 2)`. -/
def handleZoomIn (st : CanvasState) : CanvasState :=
  { st with zoom := min (st.zoom + 1/10) 2 }

/-- `handleZoomOut()`: `z => Math.max(z - 0.1, 0.3)`. -/
def handleZoomOut (st : CanvasState) : CanvasState :=
  { st with zoom := max (st.zoom - 1/10) (3/10) }

/-- `handleResetZoom()`: zoom back to `1`, pan back to the origin. -/
def handleResetZoom (st : CanvasState) : CanvasState :=
  { st with zoom := 1, pan := (0, 0) }

/-- `handleWheel(e)`: with ctrl/meta held, nudge the zoom by `±0.05` and
clamp into `[0.3, 2]`; otherwise leave the state alone. -/
def handleWheel (st : CanvasState) (deltaY : ℚ) (ctrl : Bool) : CanvasState :=
  if ctrl then
    let delta : ℚ := if deltaY > 0 then -(1/20) else 1/20
    { st with zoom := max (3/10) (min 2 (st.zoom + delta)) }
  else st

end Canvas

/-! ## Basic facts about `jsFindIndex` -/

theorem jsFindIndex_spec (p : α → Bool) (l : List α) :
    (jsFindIndex p l = -1 ∧ ∀ x ∈ l, p x = false) ∨
    (∃ n : Nat, jsFindIndex p l = (n : Int) ∧
      (∃ x, l[n]? = some x ∧ p x = true) ∧
      ∀ j x, j < n → l[j]? = some x → p x = false) := by
  induction l with
  | nil => exact Or.inl ⟨rfl, by simp⟩
  | cons a rest ih =>
      by_cases hpa : p a = true
      · refine Or.inr ⟨0, by simp [jsFindIndex, hpa], ⟨a, by simp, hpa⟩, ?_⟩
        intro j x hj
        omega
      · have hpa' : p a = false := by simpa using hpa
        rcases ih with ⟨h1, h2⟩ | ⟨n, hn, ⟨x, hx, hpx⟩, hmin⟩
        · refine Or.inl ⟨by simp [jsFindIndex, hpa', h1], ?_⟩
          intro y hy
          rcases List.mem_cons.mp hy with rfl | hy'
          · exact hpa'
          · exact h2 y hy'
        · have hne : (n : Int) ≠ -1 := by omega
          refine Or.inr ⟨n + 1, ?_, ⟨x, by simpa using hx, hpx⟩, ?_⟩
          · simp only [jsFindIndex, hpa', if_false]
            simp [hn, hne]
          · intro j y hj hy
            cases j with
            | zero =>
                have hya : y = a := by simpa using hy.symm
                simpa [hya] using hpa'
            | succ j' =>
                exact hmin j' y (by omega) (by simpa using hy)

theorem jsFindIndex_eq_coe (p : α → Bool) (l : List α) (n : Nat) (x : α)
    (hx : l[n]? = some x) (hpx : p x = true)
    (hmin : ∀ j y, j < n → l[j]? = some y → p y = false) :
    jsFindIndex p l = (n : Int) := by
  induction l generalizing n with
  | nil => simp at hx
  | cons a rest ih =>
      cases n with
      | zero =>
          have : a = x := by simpa using hx
          simp [jsFindIndex, this, hpx]
      | succ m =>
          have hpa : p a = false := hmin 0 a (Nat.succ_pos m) (by simp)
          have hrest : jsFindIndex p rest = (m : Int) := by
            refine ih m (by simpa using hx) ?_
            intro j y hj hy
            exact hmin (j + 1) y (by omega) (by simpa using hy)
          have hne : (m : Int) ≠ -1 := by omega
          simp only [jsFindIndex, hpa, if_false]
          simp [hrest, hne]

theorem jsFindIndex_map (f : α → β) (q : β → Bool) (l : List α) :
    jsFindIndex q (l.map f) = jsFindIndex (fun a => q (f a)) l := by
  induction l with
  | nil => rfl
  | cons a rest ih => simp [jsFindIndex, ih]

theorem jsFindIndex_neg_one_iff (p : α → Bool) (l : List α) :
    jsFindIndex p l = -1 ↔ ∀ x ∈ l, p x = false := by
  constructor
  · intro h
    rcases jsFindIndex_spec p l with ⟨_, h2⟩ | ⟨n, hn, _, _⟩
    · exact h2
    · omega
  · intro h
    rcases jsFindIndex_spec p l with ⟨h1, _⟩ | ⟨n, hn, ⟨x, hx, hpx⟩, _⟩
    · exact h1
    · have := h x (List.getElem?_mem hx)
      simp [this] at hpx

/-! ## Structure of `flatten` -/

@[simp] theorem sumLen_nil : sumLen [] = 0 := rfl

@[simp] theorem sumLen_cons (p : Phase) (ps : List Phase) :
    sumLen (p :: ps) = p.steps.length + sumLen ps := by
  simp [sumLen]

@[simp] theorem flattenSteps_length (pi : Nat) (pid pname : String)
    (steps : List Step) (si k : Nat) :
    (flattenSteps pi pid pname steps si k).length = steps.length := by
  induction steps generalizing si k with
  | nil => rfl
  | cons s rest ih => simp [flattenSteps, ih]

@[simp] theorem flattenAux_length (ps : List Phase) (pi k : Nat) :
    (flattenAux ps pi k).length = sumLen ps := by
  induction ps generalizing pi k with
  | nil => rfl
  | cons p rest ih => simp [flattenAux, ih]

theorem flatten_length (ps : List Phase) : (flatten ps).length = sumLen ps := by
  simp [flatten]

theorem flattenSteps_getElem? (pi : Nat) (pid pname : String)
    (steps : List Step) (si k j : Nat) :
    (flattenSteps pi pid pname steps si k)[j]? =
      steps[j]?.map (fun s => mkRef pi (si + j) pid pname s (k + j)) := by
  induction steps generalizing si k j with
  | nil => simp [flattenSteps]
  | cons s rest ih =>
      cases j with
      | zero => simp [flattenSteps]
      | succ m =>
          simp only [flattenSteps, List.getElem?_cons_succ, ih (si + 1) (k + 1) m]
          have h1 : si + 1 + m = si + (m + 1) := by omega
          have h2 : k + 1 + m = k + (m + 1) := by omega
          rw [h1, h2]

theorem find?_append_some {α} (l1 l2 : List α) (p : α → Bool) (x : α)
    (h : l1.find? p = some x) : (l1 ++ l2).find? p = some x := by
  induction l1 with
  | nil => simp at h
  | cons a rest ih =>
      by_cases hpa : p a = true
      · rw [List.find?_cons_of_pos rest hpa] at h
        rw [List.cons_append, List.find?_cons_of_pos (rest ++ l2) hpa]
        exact h
      · have hneg : ¬ p a = true := hpa
        rw [List.find?_cons_of_neg rest hneg] at h
        rw [List.cons_append, List.find?_cons_of_neg (rest ++ l2) hneg]
        exact ih h

theorem find?_append_none {α} (l1 l2 : List α) (p : α → Bool)
    (h : l1.find? p = none) : (l1 ++ l2).find? p = l2.find? p := by
  induction l1 with
  | nil => simp
  | cons a rest ih =>
      by_cases hpa : p a = true
      · rw [List.find?_cons_of_pos rest hpa] at h
        simp at h
      · have hneg : ¬ p a = true := hpa
        rw [List.find?_cons_of_neg rest hneg] at h
        rw [List.cons_append, List.find?_cons_of_neg (rest ++ l2) hneg]
        exact ih h

theorem flattenSteps_phaseIndex (pi : Nat) (pid pname : String)
    (steps : List Step) (si k : Nat) :
    ∀ r ∈ flattenSteps pi pid pname steps si k, r.phaseIndex = pi := by
  induction steps generalizing si k with
  | nil => simp [flattenSteps]
  | cons s rest ih =>
      intro r hr
      rcases List.mem_cons.mp hr with rfl | hr'
      · rfl
      · exact ih (si + 1) (k + 1) r hr'

theorem flattenAux_phaseIndex_ge (ps : List Phase) (pi k : Nat) :
    ∀ r ∈ flattenAux ps pi k, pi ≤ r.phaseIndex := by
  induction ps generalizing pi k with
  | nil => simp [flattenAux]
  | cons p rest ih =>
      intro r hr
      rcases List.mem_append.mp hr with hr' | hr'
      · exact le_of_eq (flattenSteps_phaseIndex pi p.id p.name p.steps 0 k r hr' |>.symm)
      · exact le_trans (Nat.le_succ pi) (ih (pi + 1) (k + p.steps.length) r hr')

theorem flattenSteps_find?_ne (pi : Nat) (pid pname : String)
    (steps : List Step) (si k tpi tsi : Nat) (h : tpi ≠ pi) :
    (flattenSteps pi pid pname steps si k).find?
      (fun r => r.phaseIndex == tpi && r.stepIndex == tsi) = none := by
  apply List.find?_eq_none.mpr
  intro r hr
  have := flattenSteps_phaseIndex pi pid pname steps si k r hr
  simp [this, Ne.symm h]

theorem flattenSteps_find?_eq (pi : Nat) (pid pname : String)
    (steps : List Step) (si k j : Nat) :
    (flattenSteps pi pid pname steps si k).find?
      (fun r => r.phaseIndex == pi && r.stepIndex == (si + j)) =
      steps[j]?.map (fun s => mkRef pi (si + j) pid pname s (k + j)) := by
  induction steps generalizing si k j with
  | nil => simp [flattenSteps]
  | cons s rest ih =>
      cases j with
      | zero =>
          simp only [flattenSteps]
          rw [List.find?_cons_of_pos _ (by simp [mkRef])]
          simp [mkRef]
      | succ m =>
          simp only [flattenSteps]
          rw [List.find?_cons_of_neg _ (by simp [mkRef])]
          have h1 : si + (m + 1) = (si + 1) + m := by omega
          rw [h1, ih (si + 1) (k + 1) m]
          have h2 : k + 1 + m = k + (m + 1) := by omega
          rw [h2]
          simp

theorem flattenAux_find? (ps : List Phase) (pi0 k tpi tsi : Nat) :
    (flattenAux ps pi0 k).find?
      (fun r => r.phaseIndex == (pi0 + tpi) && r.stepIndex == tsi) =
      ps[tpi]?.bind (fun p => p.steps[tsi]?.map
        (fun s => mkRef (pi0 + tpi) tsi p.id p.name s (k + sumLen (ps.take tpi) + tsi))) := by
  induction ps generalizing pi0 k tpi with
  | nil => simp [flattenAux]
  | cons p rest ih =>
      cases tpi with
      | zero =>
          simp only [flattenAux, Nat.add_zero, List.getElem?_cons_zero, Option.some_bind,
            List.take_zero, sumLen_nil]
          cases hst : p.steps[tsi]? with
          | none =>
              have hhead : (flattenSteps pi0 p.id p.name p.steps 0 k).find?
                  (fun r => r.phaseIndex == pi0 && r.stepIndex == tsi) = none := by
                have := flattenSteps_find?_eq pi0 p.id p.name p.steps 0 k tsi
                simpa [hst] using this
              rw [find?_append_none _ _ _ hhead]
              apply List.find?_eq_none.mpr
              intro r hr
              have := flattenAux_phaseIndex_ge rest (pi0 + 1) (k + p.steps.length) r hr
              have hne : r.phaseIndex ≠ pi0 := by omega
              simp [hne]
          | some s =>
              have hhead : (flattenSteps pi0 p.id p.name p.steps 0 k).find?
                  (fun r => r.phaseIndex == pi0 && r.stepIndex == tsi) =
                  some (mkRef pi0 tsi p.id p.name s (k + tsi)) := by
                have := flattenSteps_find?_eq pi0 p.id p.name p.steps 0 k tsi
                simpa [hst] using this
              rw [find?_append_some _ _ _ _ hhead]
              simp [hst]
      | succ t =>
          simp only [flattenAux]
          have hhead : (flattenSteps pi0 p.id p.name p.steps 0 k).find?
              (fun r => r.phaseIndex == (pi0 + (t + 1)) && r.stepIndex == tsi) = none :=
            flattenSteps_find?_ne pi0 p.id p.name p.steps 0 k _ tsi (by omega)
          rw [find?_append_none _ _ _ hhead]
          have harg : pi0 + (t + 1) = (pi0 + 1) + t := by omega
          rw [harg, ih (pi0 + 1) (k + p.steps.length) t]
          have hsum : k + p.steps.length + sumLen (rest.take t) + tsi
              = k + sumLen ((p :: rest).take (t + 1)) + tsi := by
            simp [sumLen, List.take_succ_cons]
            omega
          rw [hsum]
          simp

theorem flatten_find? (phases : List Phase) (tpi tsi : Nat) :
    (flatten phases).find?
      (fun r => r.phaseIndex == tpi && r.stepIndex == tsi) =
      phases[tpi]?.bind (fun p => p.steps[tsi]?.map
        (fun s => mkRef tpi tsi p.id p.name s (sumLen (phases.take tpi) + tsi))) := by
  have := flattenAux_find? phases 0 0 tpi tsi
  simpa [flatten] using this

/-! ## The pointwise effect of `rewriteCompleted` -/

/-- Pointwise view of the inner loop of `rewriteCompleted`: rewrite each
step's flag from its linear index `k` and its old flag. -/
def applyIdxSteps (g : Nat → Bool → Bool) : Nat → List Step → List Step
  | _, [] => []
  | k, s :: rest => { s with completed := g k s.completed } :: applyIdxSteps g (k + 1) rest

/-- Pointwise view of `rewriteCompleted`, threading the linear index through
the phases. -/
def applyIdx (g : Nat → Bool → Bool) : Nat → List Phase → List Phase
  | _, [] => []
  | k, p :: ps => { p with steps := applyIdxSteps g k p.steps } :: applyIdx g (k + p.steps.length) ps

@[simp] theorem applyIdxSteps_length (g : Nat → Bool → Bool) (k : Nat) (steps : List Step) :
    (applyIdxSteps g k steps).length = steps.length := by
  induction steps generalizing k with
  | nil => rfl
  | cons s rest ih => simp [applyIdxSteps, ih]

theorem mapStepsIdx_rw_eq_applyIdxSteps (flat : List FlatRef) (g : Nat → Bool → Bool)
    (tpi : Nat) (pid pname : String) (steps : List Step) :
    ∀ si0 k, (∀ j s, steps[j]? = some s →
        flat.find? (fun r => r.phaseIndex == tpi && r.stepIndex == (si0 + j)) =
          some (mkRef tpi (si0 + j) pid pname s (k + j))) →
      mapStepsIdx (fun si s =>
          match flat.find? (fun r => r.phaseIndex == tpi && r.stepIndex == si) with
          | none => s
          | some ref => { s with completed := g ref.linearIndex s.completed }) si0 steps
        = applyIdxSteps g k steps := by
  induction steps with
  | nil => intro si0 k _; rfl
  | cons s rest ih =>
      intro si0 k h
      have h0 := h 0 s (by simp)
      simp only [Nat.add_zero] at h0
      simp only [mapStepsIdx, applyIdxSteps]
      rw [h0]
      refine congrArg₂ _ rfl ?_
      refine ih (si0 + 1) (k + 1) ?_
      intro j s' hj
      have hh := h (j + 1) s' (by simpa using hj)
      have e1 : si0 + (j + 1) = si0 + 1 + j := by omega
      have e2 : k + (j + 1) = k + 1 + j := by omega
      rw [e1, e2] at hh
      exact hh

theorem mapPhasesIdx_rw_eq_applyIdx (flat : List FlatRef) (g : Nat → Bool → Bool) :
    ∀ (ps : List Phase) (pi0 k : Nat),
      (∀ t p, ps[t]? = some p → ∀ j s, p.steps[j]? = some s →
        flat.find? (fun r => r.phaseIndex == (pi0 + t) && r.stepIndex == j) =
          some (mkRef (pi0 + t) j p.id p.name s (k + sumLen (ps.take t) + j))) →
      mapPhasesIdx (fun pi p =>
          { p with steps := (mapStepsIdx (fun si s =>
              match flat.find? (fun r => r.phaseIndex == pi && r.stepIndex == si) with
              | none => s
              | some ref => { s with completed := g ref.linearIndex s.completed }) 0 p.steps) })
        pi0 ps = applyIdx g k ps := by
  intro ps
  induction ps with
  | nil => intro pi0 k _; rfl
  | cons p rest ih =>
      intro pi0 k h
      simp only [mapPhasesIdx, applyIdx]
      refine congrArg₂ _ ?_ ?_
      · refine congrArg _ ?_
        refine mapStepsIdx_rw_eq_applyIdxSteps flat g pi0 p.id p.name p.steps 0 k ?_
        intro j s hj
        have hh := h 0 p (by simp) j s hj
        simpa using hh
      · refine ih (pi0 + 1) (k + p.steps.length) ?_
        intro t q hq j s hs
        have hh := h (t + 1) q (by simpa using hq) j s hs
        have e1 : pi0 + (t + 1) = pi0 + 1 + t := by omega
        rw [e1] at hh
        have e2 : k + sumLen ((p :: rest).take (t + 1)) + j
            = k + p.steps.length + sumLen (rest.take t) + j := by
          simp [sumLen, List.take_succ_cons]
          omega
        rw [e2] at hh
        exact hh

theorem rewriteCompleted_eq_applyIdx (prev : List Phase) (g : Nat → Bool → Bool) :
    rewriteCompleted prev g = applyIdx g 0 prev := by
  simp only [rewriteCompleted]
  refine mapPhasesIdx_rw_eq_applyIdx (flatten prev) g prev 0 0 ?_
  intro t p hp j s hs
  have hf := flatten_find? prev t j
  rw [hp] at hf
  simp only [Option.some_bind, hs, Option.map_some] at hf
  simpa using hf

/-! ## `flatten` after `applyIdx` -/

theorem flattenSteps_applyIdxSteps (pi : Nat) (pid pname : String) (g : Nat → Bool → Bool) :
    ∀ (steps : List Step) (si k : Nat),
      flattenSteps pi pid pname (applyIdxSteps g k steps) si k =
        (flattenSteps pi pid pname steps si k).map
          (fun r => { r with completed := g r.linearIndex r.completed }) := by
  intro steps
  induction steps with
  | nil => intro si k; rfl
  | cons s rest ih =>
      intro si k
      simp only [applyIdxSteps, flattenSteps, List.map_cons, ih (si + 1) (k + 1)]
      rfl

theorem flattenAux_applyIdx (g : Nat → Bool → Bool) :
    ∀ (ps : List Phase) (pi k : Nat),
      flattenAux (applyIdx g k ps) pi k =
        (flattenAux ps pi k).map (fun r => { r with completed := g r.linearIndex r.completed }) := by
  intro ps
  induction ps with
  | nil => intro pi k; rfl
  | cons p rest ih =>
      intro pi k
      simp only [applyIdx, flattenAux, applyIdxSteps_length, List.map_append,
        flattenSteps_applyIdxSteps, ih (pi + 1) (k + p.steps.length)]

theorem flatten_applyIdx (g : Nat → Bool → Bool) (ps : List Phase) :
    flatten (applyIdx g 0 ps) =
      (flatten ps).map (fun r => { r with completed := g r.linearIndex r.completed }) := by
  simpa [flatten] using flattenAux_applyIdx g ps 0 0

theorem flatten_rewriteCompleted (prev : List Phase) (g : Nat → Bool → Bool) :
    flatten (rewriteCompleted prev g) =
      (flatten prev).map (fun r => { r with completed := g r.linearIndex r.completed }) := by
  rw [rewriteCompleted_eq_applyIdx, flatten_applyIdx]

/-! ## Algebra of `applyIdx` -/

theorem applyIdxSteps_comp (g g' : Nat → Bool → Bool) :
    ∀ (steps : List Step) (k : Nat),
      applyIdxSteps g' k (applyIdxSteps g k steps) =
        applyIdxSteps (fun li old => g' li (g li old)) k steps := by
  intro steps
  induction steps with
  | nil => intro k; rfl
  | cons s rest ih => intro k; simp [applyIdxSteps, ih (k + 1)]

theorem applyIdx_comp (g g' : Nat → Bool → Bool) :
    ∀ (ps : List Phase) (k : Nat),
      applyIdx g' k (applyIdx g k ps) = applyIdx (fun li old => g' li (g li old)) k ps := by
  intro ps
  induction ps with
  | nil => intro k; rfl
  | cons p rest ih =>
      intro k
      simp [applyIdx, applyIdxSteps_comp, applyIdxSteps_length, ih (k + p.steps.length)]

theorem applyIdxSteps_congr {g1 g2 : Nat → Bool → Bool} (h : ∀ li b, g1 li b = g2 li b) :
    ∀ (steps : List Step) (k : Nat), applyIdxSteps g1 k steps = applyIdxSteps g2 k steps := by
  intro steps
  induction steps with
  | nil => intro k; rfl
  | cons s rest ih => intro k; simp [applyIdxSteps, h, ih (k + 1)]

theorem applyIdx_congr {g1 g2 : Nat → Bool → Bool} (h : ∀ li b, g1 li b = g2 li b) :
    ∀ (ps : List Phase) (k : Nat), applyIdx g1 k ps = applyIdx g2 k ps := by
  intro ps
  induction ps with
  | nil => intro k; rfl
  | cons p rest ih => intro k; simp [applyIdx, applyIdxSteps_congr h, ih]

theorem stepPositions_applyIdx (g : Nat → Bool → Bool) :
    ∀ (ps : List Phase) (k : Nat), stepPositions (applyIdx g k ps) = stepPositions ps := by
  have hsteps : ∀ (steps : List Step) (k : Nat),
      (applyIdxSteps g k steps).map (fun s => (s.x, s.y)) = steps.map (fun s => (s.x, s.y)) := by
    intro steps
    induction steps with
    | nil => intro k; rfl
    | cons s rest ih => intro k; simp [applyIdxSteps, ih (k + 1)]
  intro ps
  induction ps with
  | nil => intro k; rfl
  | cons p rest ih => intro k; simp [applyIdx, stepPositions, hsteps] at ih ⊢; exact ih _

theorem stepPositions_rewriteCompleted (prev : List Phase) (g : Nat → Bool → Bool) :
    stepPositions (rewriteCompleted prev g) = stepPositions prev := by
  rw [rewriteCompleted_eq_applyIdx, stepPositions_applyIdx]

theorem stepPositions_setFocus (prev : List Phase) (I : Int) :
    stepPositions (setFocusByLinearIndex prev I) = stepPositions prev := by
  simp only [setFocusByLinearIndex]
  exact stepPositions_rewriteCompleted prev _

theorem stepPositions_completeCurrent (phases : List Phase) :
    stepPositions (completeCurrent phases) = stepPositions phases := by
  simp only [completeCurrent]
  split
  · rfl
  · split
    · rfl
    · split
      · exact stepPositions_rewriteCompleted phases _
      · rw [stepPositions_setFocus, stepPositions_rewriteCompleted]

theorem stepPositions_removeCurrent (phases : List Phase) (cur : FlatRef)
    (hc : currentRef phases = some cur) :
    stepPositions (removeCurrent phases) = stepPositions (removeCurrentUpdated phases cur) := by
  simp only [removeCurrent, hc]
  split
  · rfl
  · split
    · rfl
    · rw [stepPositions_setFocus]

/-! ## Claim theorems: focus frontier, idempotence, position independence -/

theorem flatten_setFocus (prev : List Phase) (I : Int) :
    flatten (setFocusByLinearIndex prev I) =
      (flatten prev).map (fun r =>
        { r with completed :=
            decide ((r.linearIndex : Int) < max 0 (min I (((flatten prev).length : Int) - 1))) }) := by
  simp only [setFocusByLinearIndex]
  exact flatten_rewriteCompleted prev _

/-- C1: for every roadmap and every target linear index `I`, `focusAt(I)`
followed by `flatten` marks completed exactly the steps whose `linearIndex`
is below `I` clamped into `[0, length - 1]`, and leaves every step's other
fields and the order unchanged. -/
theorem focusAt_frontier (phases : List Phase) (I : Int) :
    flatten (setFocusByLinearIndex phases I) =
      (flatten phases).map (fun r =>
        { r with completed :=
            decide ((r.linearIndex : Int) < max 0 (min I (((flatten phases).length : Int) - 1))) }) :=
  flatten_setFocus phases I

/-- C5: `focusAt` is idempotent — applying it twice with the same target
index yields exactly the state obtained by applying it once. -/
theorem focusAt_idempotent (phases : List Phase) (I : Int) :
    setFocusByLinearIndex (setFocusByLinearIndex phases I) I = setFocusByLinearIndex phases I := by
  simp only [setFocusByLinearIndex]
  simp only [flatten_rewriteCompleted, List.length_map]
  rw [rewriteCompleted_eq_applyIdx, rewriteCompleted_eq_applyIdx, applyIdx_comp]

/-- C9: canvas positions are independent of completion and focus state —
`focusAt` and `completeCurrent` keep every step's `(x, y)` exactly as it
was, and `removeCurrent` keeps the `(x, y)` of every surviving step (its
result carries exactly the positions of the structure with the current step
filtered out). -/
theorem positions_untouched_by_focus_ops (phases : List Phase) (I : Int) :
    stepPositions (setFocusByLinearIndex phases I) = stepPositions phases ∧
    stepPositions (completeCurrent phases) = stepPositions phases ∧
    stepPositions (removeCurrent phases) =
      (match currentRef phases with
       | none => stepPositions phases
       | some cur => stepPositions (removeCurrentUpdated phases cur)) := by
  refine ⟨stepPositions_setFocus phases I, stepPositions_completeCurrent phases, ?_⟩
  cases hc : currentRef phases with
  | none => simp [removeCurrent, hc]
  | some cur => simpa using stepPositions_removeCurrent phases cur hc

/-- C7: `firstIncompleteIndex` is total on every flag assignment, including
non-monotonic ones: it returns the index of the first step whose flag is
`false` — whatever follows it — and the `-1` sentinel exactly when the
sequence is empty or every flag is `true`; and `allDone` holds exactly on a
nonempty all-completed sequence. -/
theorem firstIncomplete_total_spec (flat : List FlatRef) :
    ((firstIncompleteIndex flat = -1 ∧ ∀ r ∈ flat, r.completed = true) ∨
      (∃ n : Nat, firstIncompleteIndex flat = (n : Int) ∧
        (∃ r, flat[n]? = some r ∧ r.completed = false) ∧
        ∀ j r, j < n → flat[j]? = some r → r.completed = true)) ∧
    (allDone flat = true ↔ flat ≠ [] ∧ ∀ r ∈ flat, r.completed = true) := by
  constructor
  · rcases jsFindIndex_spec (fun x => !x.completed) flat with ⟨h1, h2⟩ | ⟨n, hn, ⟨x, hx, hpx⟩, hmin⟩
    · exact Or.inl ⟨h1, fun r hr => by simpa using h2 r hr⟩
    · refine Or.inr ⟨n, hn, ⟨x, hx, by simpa using hpx⟩, ?_⟩
      intro j r hj hr
      simpa using hmin j r hj hr
  · simp [allDone, List.all_eq_true, List.length_pos]

/-! ## Positional characterization of `flatten` -/

theorem flattenAux_getElem?_spec :
    ∀ (ps : List Phase) (pi0 k j : Nat) (r : FlatRef),
      (flattenAux ps pi0 k)[j]? = some r →
      r.linearIndex = k + j ∧
      ∃ d p s, r.phaseIndex = pi0 + d ∧ ps[d]? = some p ∧ p.steps[r.stepIndex]? = some s ∧
        r.phaseId = p.id ∧ r.phaseName = p.name ∧ r.stepId = s.id ∧ r.text = s.text ∧
        r.completed = s.completed ∧ sumLen (ps.take d) + r.stepIndex = j := by
  intro ps
  induction ps with
  | nil => intro pi0 k j r h; simp [flattenAux] at h
  | cons p rest ih =>
      intro pi0 k j r h
      simp only [flattenAux] at h
      rw [List.getElem?_append] at h
      simp only [flattenSteps_length] at h
      by_cases hj : j < p.steps.length
      · rw [if_pos hj, flattenSteps_getElem? pi0 p.id p.name p.steps 0 k j] at h
        cases hs : p.steps[j]? with
        | none => rw [hs] at h; simp at h
        | some s =>
            rw [hs] at h
            have h' : mkRef pi0 (0 + j) p.id p.name s (k + j) = r := Option.some.inj h
            subst h'
            refine ⟨rfl, 0, p, s, rfl, by simp, ?_, rfl, rfl, rfl, rfl, rfl, ?_⟩
            · rw [show (mkRef pi0 (0 + j) p.id p.name s (k + j)).stepIndex = j from by
                simp [mkRef]]
              exact hs
            · simp [mkRef]
      · rw [if_neg hj] at h
        obtain ⟨hli, d, q, s, hpi, hq, hs, h1, h2, h3, h4, h5, h6⟩ :=
          ih (pi0 + 1) (k + p.steps.length) (j - p.steps.length) r h
        refine ⟨by omega, d + 1, q, s, by omega, by simpa using hq, hs, h1, h2, h3, h4, h5, ?_⟩
        simp only [List.take_succ_cons, sumLen_cons]
        omega

theorem flatten_getElem?_spec (ps : List Phase) (j : Nat) (r : FlatRef)
    (h : (flatten ps)[j]? = some r) :
    r.linearIndex = j ∧
    ∃ p s, ps[r.phaseIndex]? = some p ∧ p.steps[r.stepIndex]? = some s ∧
      r.phaseId = p.id ∧ r.phaseName = p.name ∧ r.stepId = s.id ∧ r.text = s.text ∧
      r.completed = s.completed ∧ sumLen (ps.take r.phaseIndex) + r.stepIndex = j := by
  obtain ⟨hli, d, p, s, hpi, hp, hs, h1, h2, h3, h4, h5, h6⟩ :=
    flattenAux_getElem?_spec ps 0 0 j r h
  have hd : r.phaseIndex = d := by omega
  subst hd
  exact ⟨by omega, p, s, hp, hs, h1, h2, h3, h4, h5, h6⟩

theorem flatten_linearIndex_getElem? (ps : List Phase) (j : Nat) (r : FlatRef)
    (h : (flatten ps)[j]? = some r) : r.linearIndex = j :=
  (flatten_getElem?_spec ps j r h).1

/-! ## Projections of `flatten` -/

theorem flattenSteps_map_triple (pi : Nat) (pid pname : String) :
    ∀ (steps : List Step) (si k : Nat),
      (flattenSteps pi pid pname steps si k).map (fun r => (r.stepId, r.text, r.completed)) =
        steps.map (fun s => (s.id, s.text, s.completed)) := by
  intro steps
  induction steps with
  | nil => intro si k; rfl
  | cons s rest ih => intro si k; simp [flattenSteps, mkRef, ih]

theorem flattenAux_map_triple :
    ∀ (ps : List Phase) (pi k : Nat),
      (flattenAux ps pi k).map (fun r => (r.stepId, r.text, r.completed)) = stepTriples ps := by
  intro ps
  induction ps with
  | nil => intro pi k; rfl
  | cons p rest ih =>
      intro pi k
      simp [flattenAux, stepTriples, flattenSteps_map_triple, ih]

theorem flatten_map_triple (ps : List Phase) :
    (flatten ps).map (fun r => (r.stepId, r.text, r.completed)) = stepTriples ps :=
  flattenAux_map_triple ps 0 0

theorem flattenSteps_map_stepId (pi : Nat) (pid pname : String) :
    ∀ (steps : List Step) (si k : Nat),
      (flattenSteps pi pid pname steps si k).map (fun r => r.stepId) =
        steps.map (fun s => s.id) := by
  intro steps
  induction steps with
  | nil => intro si k; rfl
  | cons s rest ih => intro si k; simp [flattenSteps, mkRef, ih]

theorem flattenAux_map_stepId :
    ∀ (ps : List Phase) (pi k : Nat),
      (flattenAux ps pi k).map (fun r => r.stepId) = stepIds ps := by
  intro ps
  induction ps with
  | nil => intro pi k; rfl
  | cons p rest ih =>
      intro pi k
      simp [flattenAux, stepIds, flattenSteps_map_stepId, ih]

theorem flatten_map_stepId (ps : List Phase) :
    (flatten ps).map (fun r => r.stepId) = stepIds ps :=
  flattenAux_map_stepId ps 0 0

/-! ## Monotone frontier shape and id uniqueness -/

theorem frontierShaped_false_after (l : List Bool) (h : frontierShaped l = true) :
    ∀ (i j : Nat) (b : Bool), i ≤ j → l[i]? = some false → l[j]? = some b → b = false := by
  induction l with
  | nil => intro i j b _ hi; simp at hi
  | cons x rest ih =>
      intro i j b hij hi hj
      cases x with
      | true =>
          cases i with
          | zero => simp at hi
          | succ i' =>
              cases j with
              | zero => omega
              | succ j' =>
                  simp only [List.getElem?_cons_succ] at hi hj
                  exact ih (by simpa [frontierShaped] using h) i' j' b (by omega) hi hj
      | false =>
          have hall : ∀ b' ∈ rest, b' = false := by
            have hrest : rest.all (fun c => !c) = true := by
              simpa [frontierShaped] using h
            intro b' hb'
            simpa using List.all_eq_true.mp hrest b' hb'
          cases j with
          | zero => simpa using hj.symm
          | succ j' =>
              simp only [List.getElem?_cons_succ] at hj
              exact hall b (List.getElem?_mem hj)

theorem nodup_getElem?_inj {α : Type _} :
    ∀ (l : List α), l.Nodup → ∀ (i j : Nat) (a : α), l[i]? = some a → l[j]? = some a → i = j := by
  intro l
  induction l with
  | nil => intro _ i j a hi; simp at hi
  | cons x rest ih =>
      intro hnd i j a hi hj
      have hx : x ∉ rest := (List.nodup_cons.mp hnd).1
      have hrest : rest.Nodup := (List.nodup_cons.mp hnd).2
      cases i with
      | zero =>
          have hxa : x = a := by simpa using hi
          cases j with
          | zero => rfl
          | succ j' =>
              exfalso
              apply hx
              have : rest[j']? = some a := by simpa using hj
              simpa [hxa] using List.getElem?_mem this
      | succ i' =>
          cases j with
          | zero =>
              have hxa : x = a := by simpa using hj
              exfalso
              apply hx
              have : rest[i']? = some a := by simpa using hi
              simpa [hxa] using List.getElem?_mem this
          | succ j' =>
              have := ih hrest i' j' a (by simpa using hi) (by simpa using hj)
              omega

theorem getElem?_some_lt_length {α : Type _} (l : List α) (n : Nat) (a : α)
    (h : l[n]? = some a) : n < l.length := by
  by_contra hn
  push_neg at hn
  rw [List.getElem?_eq_none hn] at h
  exact Option.noConfusion h

theorem currentRef_spec (phases : List Phase) (cur : FlatRef)
    (hc : currentRef phases = some cur) :
    ∃ F : Nat, firstIncompleteIndex (flatten phases) = (F : Int) ∧
      (flatten phases)[F]? = some cur ∧ cur.completed = false ∧
      ∀ (j : Nat) (r : FlatRef), j < F → (flatten phases)[j]? = some r →
        r.completed = true := by
  unfold currentRef at hc
  by_cases h0 : (flatten phases).length = 0
  · simp [h0] at hc
  · rw [if_neg h0] at hc
    by_cases h1 : firstIncompleteIndex (flatten phases) = -1
    · simp [h1] at hc
    · rw [if_neg h1] at hc
      rcases jsFindIndex_spec (fun x => !x.completed) (flatten phases) with
        ⟨hA, _⟩ | ⟨n, hn, ⟨x, hx, hpx⟩, hmin⟩
      · exact absurd hA h1
      · have hn' : firstIncompleteIndex (flatten phases) = (n : Int) := hn
        rw [hn'] at hc
        have hc' : (flatten phases)[n]? = some cur := by simpa using hc
        have hxc : x = cur := by
          rw [hc'] at hx
          exact (Option.some.inj hx).symm
        subst hxc
        refine ⟨n, hn', hc', by simpa using hpx, ?_⟩
        intro j r hj hr
        simpa using hmin j r hj hr

theorem findIndex_stepId_eq (phases : List Phase) (cur : FlatRef) (F : Nat)
    (hnd : ((flatten phases).map (fun r => r.stepId)).Nodup)
    (hFc : (flatten phases)[F]? = some cur) :
    jsFindIndex (fun r => r.stepId == cur.stepId) (flatten phases) = (F : Int) := by
  refine jsFindIndex_eq_coe _ _ F cur hFc (by simp) ?_
  intro j r hj hr
  cases hbe : (r.stepId == cur.stepId) with
  | false => rfl
  | true =>
      exfalso
      have hid : r.stepId = cur.stepId := beq_iff_eq.mp hbe
      have h1 : ((flatten phases).map (fun r => r.stepId))[j]? = some cur.stepId := by
        rw [List.getElem?_map, hr]
        simp [hid]
      have h2 : ((flatten phases).map (fun r => r.stepId))[F]? = some cur.stepId := by
        rw [List.getElem?_map, hFc]
        simp
      have := nodup_getElem?_inj _ hnd j F cur.stepId h1 h2
      omega

/-- C2 (amended): on a roadmap whose flags already form a monotone frontier
and whose step ids are unique, `completeCurrent` marks completed exactly the
steps with `linearIndex ≤` the current focus index and leaves every later
step's flag as it was; in particular the completed set only grows. -/
theorem completeCurrent_monotone_spec (phases : List Phase) (cur : FlatRef)
    (hcur : currentRef phases = some cur)
    (hnd : ((flatten phases).map (fun r => r.stepId)).Nodup)
    (hmono : frontierShaped ((flatten phases).map (fun r => r.completed)) = true) :
    flatten (completeCurrent phases) =
      (flatten phases).map (fun r =>
        { r with completed :=
            r.completed ||
              decide ((r.linearIndex : Int) ≤ firstIncompleteIndex (flatten phases)) }) := by
  obtain ⟨F, hF, hFc, hcurF, hmin⟩ := currentRef_spec phases cur hcur
  have hidx := findIndex_stepId_eq phases cur F hnd hFc
  have hFlen : F < (flatten phases).length := getElem?_some_lt_length _ _ _ hFc
  have hflagF : ((flatten phases).map (fun r => r.completed))[F]? = some false := by
    rw [List.getElem?_map, hFc]
    simp [hcurF]
  have hlate : ∀ (j : Nat) (r : FlatRef), F ≤ j → (flatten phases)[j]? = some r →
      r.completed = false := by
    intro j r hj hr
    have hj' : ((flatten phases).map (fun r => r.completed))[j]? = some r.completed := by
      rw [List.getElem?_map, hr]
      simp
    exact frontierShaped_false_after _ hmono F j r.completed hj hflagF hj'
  rw [hF]
  unfold completeCurrent
  rw [hcur]
  simp only [hidx]
  rw [if_neg (by omega : ¬ (F : Int) = -1)]
  have hafter : flatten (rewriteCompleted phases
      (fun li old => if (li : Int) ≤ (F : Int) then true else old)) =
      (flatten phases).map
        (fun r => { r with completed :=
          if (r.linearIndex : Int) ≤ (F : Int) then true else r.completed }) :=
    flatten_rewriteCompleted phases _
  by_cases hlast : F + 1 < (flatten phases).length
  · -- a later step remains: the machine refocuses at F + 1
    obtain ⟨r1, hr1⟩ : ∃ r1, (flatten phases)[F + 1]? = some r1 :=
      ⟨(flatten phases)[F + 1], List.getElem?_eq_getElem hlast⟩
    have hr1li : r1.linearIndex = F + 1 := flatten_linearIndex_getElem? phases (F + 1) r1 hr1
    have hr1c : r1.completed = false := hlate (F + 1) r1 (by omega) hr1
    have hnewIdx : firstIncompleteIndex (flatten (rewriteCompleted phases
        (fun li old => if (li : Int) ≤ (F : Int) then true else old))) = ((F + 1 : Nat) : Int) := by
      rw [hafter]
      refine jsFindIndex_eq_coe _ _ (F + 1)
        { r1 with completed := if (r1.linearIndex : Int) ≤ (F : Int) then true else r1.completed }
        (by rw [List.getElem?_map, hr1]; simp) ?_ ?_
      · simp only [Bool.not_eq_true']
        simp [hr1li, hr1c]
      · intro j y hj hy
        rw [List.getElem?_map] at hy
        cases hrj : (flatten phases)[j]? with
        | none => rw [hrj] at hy; simp at hy
        | some rj =>
            rw [hrj] at hy
            have hy' := Option.some.inj hy
            have hli : rj.linearIndex = j := flatten_linearIndex_getElem? phases j rj hrj
            subst hy'
            simp only [Bool.not_eq_true']
            simp [hli]
            omega
    rw [hnewIdx]
    rw [if_neg (by omega : ¬ ((F + 1 : Nat) : Int) = -1)]
    rw [flatten_setFocus]
    rw [hafter]
    simp only [List.length_map]
    have hminlen : min ((F + 1 : Nat) : Int) (((flatten phases).length : Int) - 1)
        = ((F + 1 : Nat) : Int) := min_eq_left (by omega)
    rw [hminlen]
    have hmaxv : max 0 ((F + 1 : Nat) : Int) = ((F + 1 : Nat) : Int) :=
      max_eq_right (by omega)
    rw [hmaxv]
    apply List.ext_getElem?
    intro n
    simp only [List.getElem?_map]
    cases hn : (flatten phases)[n]? with
    | none => simp
    | some r =>
        have hli : r.linearIndex = n := flatten_linearIndex_getElem? phases n r hn
        simp only [Option.map_some', Option.some_inj]
        by_cases hle : n ≤ F
        · simp [hli, hle]
          omega
        · have hrc : r.completed = false := hlate n r (by omega) hn
          simp [hli, hrc]
          omega
  · -- the current step was the last incomplete one: all-done, no refocus
    have hlen2 : (flatten phases).length = F + 1 := by omega
    have hnewIdx : firstIncompleteIndex (flatten (rewriteCompleted phases
        (fun li old => if (li : Int) ≤ (F : Int) then true else old))) = -1 := by
      rw [hafter]
      apply (jsFindIndex_neg_one_iff _ _).mpr
      intro x hx
      rcases List.mem_map.mp hx with ⟨r, hr, hrx⟩
      obtain ⟨n, hn⟩ := List.getElem?_of_mem hr
      have hli : r.linearIndex = n := flatten_linearIndex_getElem? phases n r hn
      have hnlt : n < (flatten phases).length := getElem?_some_lt_length _ _ _ hn
      subst hrx
      simp only [Bool.not_eq_true']
      simp [hli]
      omega
    rw [hnewIdx]
    rw [if_pos rfl]
    rw [hafter]
    apply List.ext_getElem?
    intro n
    simp only [List.getElem?_map]
    cases hn : (flatten phases)[n]? with
    | none => simp
    | some r =>
        have hli : r.linearIndex = n := flatten_linearIndex_getElem? phases n r hn
        have hnlt : n < (flatten phases).length := getElem?_some_lt_length _ _ _ hn
        have hle : n ≤ F := by omega
        simp only [Option.map_some', Option.some_inj]
        simp [hli, hle]

/-! ## Splicing a step (insert before / after) -/

theorem getElem?_decomp {α : Type _} :
    ∀ (l : List α) (n : Nat) (a : α), l[n]? = some a → l = l.take n ++ a :: l.drop (n + 1) := by
  intro l
  induction l with
  | nil => intro n a h; simp at h
  | cons x rest ih =>
      intro n a h
      cases n with
      | zero =>
          have : x = a := by simpa using h
          simp [this]
      | succ m =>
          have h' : rest[m]? = some a := by simpa using h
          simpa using congrArg (fun t => x :: t) (ih m a h')

theorem stepTriples_append (l1 l2 : List Phase) :
    stepTriples (l1 ++ l2) = stepTriples l1 ++ stepTriples l2 := by
  simp [stepTriples]

theorem stepTriples_length (ps : List Phase) : (stepTriples ps).length = sumLen ps := by
  rw [← flatten_map_triple]
  simp [flatten_length]

theorem mapPhasesIdx_eq_of_lt (f : Phase → Phase) (tpi : Nat) :
    ∀ (l : List Phase) (pi0 : Nat), tpi < pi0 →
      mapPhasesIdx (fun pi q => if pi = tpi then f q else q) pi0 l = l := by
  intro l
  induction l with
  | nil => intro pi0 _; rfl
  | cons p rest ih =>
      intro pi0 hlt
      simp only [mapPhasesIdx]
      rw [if_neg (by omega : ¬ pi0 = tpi), ih (pi0 + 1) (by omega)]

theorem mapPhasesIdx_if_split (f : Phase → Phase) :
    ∀ (P1 : List Phase) (p : Phase) (P2 : List Phase) (pi0 : Nat),
      mapPhasesIdx (fun pi q => if pi = pi0 + P1.length then f q else q) pi0 (P1 ++ p :: P2)
        = P1 ++ f p :: P2 := by
  intro P1
  induction P1 with
  | nil =>
      intro p P2 pi0
      simp only [List.nil_append, mapPhasesIdx, List.length_nil, Nat.add_zero, if_true]
      rw [mapPhasesIdx_eq_of_lt f pi0 P2 (pi0 + 1) (by omega)]
  | cons q P1' ih =>
      intro p P2 pi0
      simp only [List.cons_append, mapPhasesIdx, List.length_cons]
      rw [if_neg (by omega : ¬ pi0 = pi0 + (P1'.length + 1))]
      have e : pi0 + (P1'.length + 1) = (pi0 + 1) + P1'.length := by omega
      simp only [e]
      exact congrArg (fun t => q :: t) (ih p P2 (pi0 + 1))

theorem stepTriples_splice (phases : List Phase) (cpi csi : Nat) (p : Phase) (new : Step)
    (hp : phases[cpi]? = some p) (hcsi : csi ≤ p.steps.length) :
    stepTriples (mapPhasesIdx
        (fun pi q => if pi = cpi then
          { q with steps := (q.steps.take csi ++ new :: q.steps.drop csi) } else q)
        0 phases)
      = (stepTriples phases).take (sumLen (phases.take cpi) + csi)
          ++ (new.id, new.text, new.completed)
          :: (stepTriples phases).drop (sumLen (phases.take cpi) + csi) := by
  have hcpil : cpi < phases.length := getElem?_some_lt_length _ _ _ hp
  have hP1len : (phases.take cpi).length = cpi := List.length_take_of_le (by omega)
  have hdec : phases = phases.take cpi ++ p :: phases.drop (cpi + 1) :=
    getElem?_decomp phases cpi p hp
  obtain ⟨P1, P2, hdecomp, hlen1⟩ : ∃ P1 P2, phases = P1 ++ p :: P2 ∧ P1.length = cpi :=
    ⟨phases.take cpi, phases.drop (cpi + 1), hdec, hP1len⟩
  subst hlen1
  subst hdecomp
  have hsplit := mapPhasesIdx_if_split
    (fun q => ({ q with steps := (q.steps.take csi ++ new :: q.steps.drop csi) } : Phase))
    P1 p P2 0
  simp only [Nat.zero_add] at hsplit
  rw [hsplit]
  rw [List.take_left]
  rw [stepTriples_append, stepTriples_append]
  simp only [stepTriples, List.flatMap_cons]
  have hTri : (p.steps.take csi ++ new :: p.steps.drop csi).map
      (fun s => (s.id, s.text, s.completed))
      = (p.steps.map (fun s => (s.id, s.text, s.completed))).take csi
        ++ (new.id, new.text, new.completed)
        :: (p.steps.map (fun s => (s.id, s.text, s.completed))).drop csi := by
    simp [List.map_take, List.map_drop]
  rw [hTri]
  have hT1len : (P1.flatMap (fun q => q.steps.map (fun s => (s.id, s.text, s.completed)))).length
      = sumLen P1 := by
    simpa [stepTriples] using stepTriples_length P1
  have hsum : sumLen P1 + csi
      = (P1.flatMap (fun q => q.steps.map (fun s => (s.id, s.text, s.completed)))).length + csi := by
    rw [hT1len]
  rw [hsum, List.take_append, List.drop_append]
  have hTplen : csi ≤ (p.steps.map (fun s => (s.id, s.text, s.completed))).length := by
    simpa using hcsi
  rw [List.take_append_of_le_length hTplen, List.drop_append_of_le_length hTplen]
  simp [List.append_assoc]

theorem flags_eq_triples (X : List Phase) :
    (flatten X).map (fun r => r.completed) = (stepTriples X).map (fun t => t.2.2) := by
  rw [← flatten_map_triple, List.map_map]
  rfl

theorem ids_eq_triples (X : List Phase) :
    (flatten X).map (fun r => r.stepId) = (stepTriples X).map (fun t => t.1) := by
  rw [← flatten_map_triple, List.map_map]
  rfl

theorem currentRef_of_flags (X : List Phase) (n : Nat)
    (hn : ((flatten X).map (fun r => r.completed))[n]? = some false)
    (hbefore : ∀ (j : Nat) (b : Bool), j < n →
      ((flatten X).map (fun r => r.completed))[j]? = some b → b = true) :
    (currentRef X).map (fun r => r.stepId) = ((flatten X).map (fun r => r.stepId))[n]? := by
  have hidx : jsFindIndex (fun b => !b) ((flatten X).map (fun r => r.completed)) = (n : Int) := by
    refine jsFindIndex_eq_coe _ _ n false hn (by simp) ?_
    intro j b hj hb
    have := hbefore j b hj hb
    simp [this]
  have hfirst : firstIncompleteIndex (flatten X) = (n : Int) := by
    rw [firstIncompleteIndex, ← jsFindIndex_map (fun r => r.completed) (fun b => !b) (flatten X)]
    exact hidx
  have hlen : n < (flatten X).length := by
    have := getElem?_some_lt_length _ _ _ hn
    simpa using this
  unfold currentRef
  rw [if_neg (by omega : ¬ (flatten X).length = 0)]
  rw [hfirst]
  rw [if_neg (by omega : ¬ (n : Int) = -1)]
  have htn : ((n : Int)).toNat = n := by omega
  rw [htn]
  rw [← List.getElem?_map (fun r => r.stepId) (flatten X) n]

/-- C3 (amended): inserting a step splices a fresh `"New step"` (not
completed) adjacent to the current step inside its phase, leaving every
existing step's content unchanged; after `addStepAfter` the re-derived focus
still has the previously-focused step's id, while after `addStepBefore` the
re-derived focus is the newly inserted step. -/
theorem insertStep_spec (phases : List Phase) (cur : FlatRef) (newId : String)
    (hcur : currentRef phases = some cur) :
    stepTriples (addStepBefore phases cur newId)
      = (stepTriples phases).take cur.linearIndex
          ++ (newId, "New step", false) :: (stepTriples phases).drop cur.linearIndex ∧
    stepTriples (addStepAfter phases cur newId)
      = (stepTriples phases).take (cur.linearIndex + 1)
          ++ (newId, "New step", false) :: (stepTriples phases).drop (cur.linearIndex + 1) ∧
    (currentRef (addStepAfter phases cur newId)).map (fun r => r.stepId) = some cur.stepId ∧
    (currentRef (addStepBefore phases cur newId)).map (fun r => r.stepId) = some newId := by
  obtain ⟨F, hF, hFc, hcurF, hmin⟩ := currentRef_spec phases cur hcur
  obtain ⟨hliF, p, s, hp, hs, hpid, hpname, hsid, hstext, hscomp, hsum⟩ :=
    flatten_getElem?_spec phases F cur hFc
  have hFlen : F < (flatten phases).length := getElem?_some_lt_length _ _ _ hFc
  have hcsilt : cur.stepIndex < p.steps.length := getElem?_some_lt_length _ _ _ hs
  have hTlen : (stepTriples phases).length = (flatten phases).length := by
    rw [← flatten_map_triple, List.length_map]
  -- the two splice equations
  have hB : stepTriples (addStepBefore phases cur newId)
      = (stepTriples phases).take F
          ++ (newId, "New step", false) :: (stepTriples phases).drop F := by
    have := stepTriples_splice phases cur.phaseIndex cur.stepIndex p
      { id := newId, text := "New step", completed := false, x := none, y := none }
      hp (by omega)
    rw [hsum] at this
    simpa [addStepBefore] using this
  have hA : stepTriples (addStepAfter phases cur newId)
      = (stepTriples phases).take (F + 1)
          ++ (newId, "New step", false) :: (stepTriples phases).drop (F + 1) := by
    have := stepTriples_splice phases cur.phaseIndex (cur.stepIndex + 1) p
      { id := newId, text := "New step", completed := false, x := none, y := none }
      hp (by omega)
    have hsum1 : sumLen (phases.take cur.phaseIndex) + (cur.stepIndex + 1) = F + 1 := by omega
    rw [hsum1] at this
    simpa [addStepAfter] using this
  refine ⟨by rw [hliF]; exact hB, by rw [hliF]; exact hA, ?_, ?_⟩
  -- flags of the original roadmap
  · -- addStepAfter keeps the old current focused
    have hflags : (flatten (addStepAfter phases cur newId)).map (fun r => r.completed)
        = ((flatten phases).map (fun r => r.completed)).take (F + 1)
            ++ false :: ((flatten phases).map (fun r => r.completed)).drop (F + 1) := by
      rw [flags_eq_triples, hA]
      simp [flags_eq_triples, List.map_take, List.map_drop]
    have hids : (flatten (addStepAfter phases cur newId)).map (fun r => r.stepId)
        = ((flatten phases).map (fun r => r.stepId)).take (F + 1)
            ++ newId :: ((flatten phases).map (fun r => r.stepId)).drop (F + 1) := by
      rw [ids_eq_triples, hA]
      simp [ids_eq_triples, List.map_take, List.map_drop]
    have hflen : ((flatten phases).map (fun r => r.completed)).length = (flatten phases).length :=
      List.length_map _ _
    have htlen : (((flatten phases).map (fun r => r.completed)).take (F + 1)).length = F + 1 :=
      List.length_take_of_le (by omega)
    have hidstake : (((flatten phases).map (fun r => r.stepId)).take (F + 1)).length = F + 1 :=
      List.length_take_of_le (by simp; omega)
    have hcr := currentRef_of_flags (addStepAfter phases cur newId) F ?_ ?_
    · rw [hcr, hids]
      rw [List.getElem?_append_left (by omega)]
      rw [List.getElem?_take_of_lt (by omega)]
      rw [List.getElem?_map, hFc]
      simp
    · rw [hflags]
      rw [List.getElem?_append_left (by omega)]
      rw [List.getElem?_take_of_lt (by omega)]
      rw [List.getElem?_map, hFc]
      simp [hcurF]
    · intro j b hj hb
      rw [hflags] at hb
      rw [List.getElem?_append_left (by omega)] at hb
      rw [List.getElem?_take_of_lt (by omega)] at hb
      rw [List.getElem?_map] at hb
      cases hrj : (flatten phases)[j]? with
      | none => rw [hrj] at hb; simp at hb
      | some rj =>
          rw [hrj] at hb
          have := hmin j rj (by omega) hrj
          simp only [Option.map_some', Option.some_inj] at hb
          exact hb ▸ this
  · -- addStepBefore focuses the new step
    have hflags : (flatten (addStepBefore phases cur newId)).map (fun r => r.completed)
        = ((flatten phases).map (fun r => r.completed)).take F
            ++ false :: ((flatten phases).map (fun r => r.completed)).drop F := by
      rw [flags_eq_triples, hB]
      simp [flags_eq_triples, List.map_take, List.map_drop]
    have hids : (flatten (addStepBefore phases cur newId)).map (fun r => r.stepId)
        = ((flatten phases).map (fun r => r.stepId)).take F
            ++ newId :: ((flatten phases).map (fun r => r.stepId)).drop F := by
      rw [ids_eq_triples, hB]
      simp [ids_eq_triples, List.map_take, List.map_drop]
    have hflen : ((flatten phases).map (fun r => r.completed)).length = (flatten phases).length :=
      List.length_map _ _
    have htlen : (((flatten phases).map (fun r => r.completed)).take F).length = F :=
      List.length_take_of_le (by omega)
    have hcr := currentRef_of_flags (addStepBefore phases cur newId) F ?_ ?_
    · rw [hcr, hids]
      have hidslen : (((flatten phases).map (fun r => r.stepId)).take F).length = F :=
        List.length_take_of_le (by simp; omega)
      rw [List.getElem?_append_right (by omega)]
      rw [hidslen]
      simp
    · rw [hflags]
      rw [List.getElem?_append_right (by omega)]
      rw [htlen]
      simp
    · intro j b hj hb
      rw [hflags] at hb
      rw [List.getElem?_append_left (by omega)] at hb
      rw [List.getElem?_take_of_lt (by omega)] at hb
      rw [List.getElem?_map] at hb
      cases hrj : (flatten phases)[j]? with
      | none => rw [hrj] at hb; simp at hb
      | some rj =>
          rw [hrj] at hb
          have := hmin j rj (by omega) hrj
          simp only [Option.map_some', Option.some_inj] at hb
          exact hb ▸ this

/-! ## Removing the current step -/

theorem map_filter_key {α β : Type _} (f : α → β) (q : β → Bool) :
    ∀ l : List α, (l.filter (fun a => q (f a))).map f = (l.map f).filter q := by
  intro l
  induction l with
  | nil => rfl
  | cons a rest ih =>
      by_cases hqa : q (f a) = true
      · simp [List.filter_cons, hqa, ih]
      · have hqa' : q (f a) = false := by simpa using hqa
        simp [List.filter_cons, hqa', ih]

theorem ids_setFocus (u : List Phase) (I : Int) :
    (flatten (setFocusByLinearIndex u I)).map (fun r => r.stepId)
      = (flatten u).map (fun r => r.stepId) := by
  rw [flatten_setFocus, List.map_map]
  rfl

theorem stepIds_removeCurrentUpdated (phases : List Phase) (cur : FlatRef) (p : Phase) (s : Step)
    (hp : phases[cur.phaseIndex]? = some p) (hs : p.steps[cur.stepIndex]? = some s)
    (hsid : cur.stepId = s.id) (hnd : (stepIds phases).Nodup) :
    stepIds (removeCurrentUpdated phases cur)
      = (stepIds phases).filter (fun i => !(i == cur.stepId)) := by
  have hcpil : cur.phaseIndex < phases.length := getElem?_some_lt_length _ _ _ hp
  have hP1len : (phases.take cur.phaseIndex).length = cur.phaseIndex :=
    List.length_take_of_le (by omega)
  have hdec : phases = phases.take cur.phaseIndex ++ p :: phases.drop (cur.phaseIndex + 1) :=
    getElem?_decomp phases cur.phaseIndex p hp
  obtain ⟨P1, P2, hdecomp, hlen1⟩ :
      ∃ P1 P2, phases = P1 ++ p :: P2 ∧ P1.length = cur.phaseIndex :=
    ⟨phases.take cur.phaseIndex, phases.drop (cur.phaseIndex + 1), hdec, hP1len⟩
  clear hdec
  rw [hdecomp] at hnd ⊢
  rw [removeCurrentUpdated, ← hlen1]
  have hsplit := mapPhasesIdx_if_split
    (fun q => ({ q with steps := q.steps.filter (fun t => !(t.id == cur.stepId)) } : Phase))
    P1 p P2 0
  simp only [Nat.zero_add] at hsplit
  rw [hsplit]
  have hdec2 : stepIds (P1 ++ p :: P2)
      = stepIds P1 ++ (p.steps.map (fun t => t.id) ++ stepIds P2) := by
    simp [stepIds]
  rw [hdec2] at hnd
  obtain ⟨hA, hBC, hdisj⟩ := List.nodup_append.mp hnd
  obtain ⟨hB, hC, hdisj2⟩ := List.nodup_append.mp hBC
  have hmemB : cur.stepId ∈ p.steps.map (fun t => t.id) := by
    rw [hsid]
    exact List.mem_map.mpr ⟨s, List.getElem?_mem hs, rfl⟩
  have hnotA : cur.stepId ∉ stepIds P1 := fun hmem =>
    hdisj hmem (List.mem_append.mpr (Or.inl hmemB))
  have hnotC : cur.stepId ∉ stepIds P2 := fun hmem => hdisj2 hmemB hmem
  have hfA : (stepIds P1).filter (fun i => !(i == cur.stepId)) = stepIds P1 := by
    apply List.filter_eq_self.mpr
    intro a ha
    simp only [Bool.not_eq_true', beq_eq_false_iff_ne]
    intro haeq
    exact hnotA (haeq ▸ ha)
  have hfC : (stepIds P2).filter (fun i => !(i == cur.stepId)) = stepIds P2 := by
    apply List.filter_eq_self.mpr
    intro a ha
    simp only [Bool.not_eq_true', beq_eq_false_iff_ne]
    intro haeq
    exact hnotC (haeq ▸ ha)
  have hfB : (p.steps.filter (fun t => !(t.id == cur.stepId))).map (fun t => t.id)
      = (p.steps.map (fun t => t.id)).filter (fun i => !(i == cur.stepId)) :=
    map_filter_key (fun t => t.id) (fun i => !(i == cur.stepId)) p.steps
  rw [hdec2]
  simp only [List.filter_append]
  rw [hfA, hfC]
  simp [stepIds, hfB]

theorem currentRef_setFocus_firstIncomplete (u : List Phase) (n : Nat)
    (hn : firstIncompleteIndex (flatten u) = (n : Int)) :
    (currentRef (setFocusByLinearIndex u (n : Int))).map (fun r => r.stepId)
      = ((flatten u)[n]?).map (fun r => r.stepId) := by
  rcases jsFindIndex_spec (fun x => !x.completed) (flatten u) with ⟨hA, _⟩ | ⟨m, hm, ⟨x, hx, _⟩, _⟩
  · rw [firstIncompleteIndex] at hn
    rw [hA] at hn
    omega
  · have hmn : m = n := by
      rw [firstIncompleteIndex] at hn
      rw [hm] at hn
      omega
    subst hmn
    have hlen : m < (flatten u).length := getElem?_some_lt_length _ _ _ hx
    have hclamp : max 0 (min ((m : Int)) (((flatten u).length : Int) - 1)) = (m : Int) := by
      rw [min_eq_left (by omega), max_eq_right (by omega)]
    have hflat : flatten (setFocusByLinearIndex u (m : Int))
        = (flatten u).map (fun r =>
            { r with completed := decide ((r.linearIndex : Int) < (m : Int)) }) := by
      rw [flatten_setFocus]
      simp only [hclamp]
    have hcr := currentRef_of_flags (setFocusByLinearIndex u (m : Int)) m ?_ ?_
    · rw [hcr]
      rw [hflat, List.map_map]
      have hcomp : ((flatten u).map
          ((fun r => r.stepId) ∘ (fun r =>
            ({ r with completed := decide ((r.linearIndex : Int) < (m : Int)) } : FlatRef))))
          = (flatten u).map (fun r => r.stepId) := rfl
      rw [hcomp]
      rw [List.getElem?_map]
    · rw [hflat, List.map_map]
      rw [List.getElem?_map, hx]
      have hxl : x.linearIndex = m := flatten_linearIndex_getElem? u m x hx
      simp [hxl]
    · intro j b hj hb
      rw [hflat, List.map_map, List.getElem?_map] at hb
      cases hrj : (flatten u)[j]? with
      | none => rw [hrj] at hb; simp at hb
      | some rj =>
          rw [hrj] at hb
          have hli : rj.linearIndex = j := flatten_linearIndex_getElem? u j rj hrj
          simp only [Option.map_some', Option.some_inj, Function.comp] at hb
          rw [← hb]
          simp [hli]
          omega

/-- C4: removing the currently focused step deletes exactly that step (ids
of the flattened sequence are the old ids with the current id filtered out,
order preserved); if the remaining sequence is empty the result is the empty
roadmap, if every remaining step is complete there is no current step, and
otherwise the re-derived current step is the first incomplete step of the
new flattened sequence. -/
theorem removeCurrent_spec (phases : List Phase) (cur : FlatRef)
    (hcur : currentRef phases = some cur)
    (hnd : ((flatten phases).map (fun r => r.stepId)).Nodup) :
    (flatten (removeCurrent phases)).map (fun r => r.stepId)
      = ((flatten phases).map (fun r => r.stepId)).filter (fun i => !(i == cur.stepId)) ∧
    (flatten (removeCurrentUpdated phases cur) = [] → flatten (removeCurrent phases) = []) ∧
    (firstIncompleteIndex (flatten (removeCurrentUpdated phases cur)) = -1 →
      currentRef (removeCurrent phases) = none) ∧
    (∀ n : Nat, firstIncompleteIndex (flatten (removeCurrentUpdated phases cur)) = (n : Int) →
      (currentRef (removeCurrent phases)).map (fun r => r.stepId)
        = ((flatten (removeCurrentUpdated phases cur))[n]?).map (fun r => r.stepId)) := by
  obtain ⟨F, hF, hFc, hcurF, hmin⟩ := currentRef_spec phases cur hcur
  obtain ⟨hliF, p, s, hp, hs, _, _, hsid, _, _, _⟩ := flatten_getElem?_spec phases F cur hFc
  have hndIds : (stepIds phases).Nodup := by
    rw [← flatten_map_stepId]
    exact hnd
  have hids_u := stepIds_removeCurrentUpdated phases cur p s hp hs hsid hndIds
  have hunfold : removeCurrent phases =
      (if (flatten (removeCurrentUpdated phases cur)).length = 0
       then removeCurrentUpdated phases cur
       else if firstIncompleteIndex (flatten (removeCurrentUpdated phases cur)) = -1
       then removeCurrentUpdated phases cur
       else setFocusByLinearIndex (removeCurrentUpdated phases cur)
         (firstIncompleteIndex (flatten (removeCurrentUpdated phases cur)))) := by
    simp only [removeCurrent, hcur]
  refine ⟨?_, ?_, ?_, ?_⟩
  · rw [hunfold]
    by_cases h0 : (flatten (removeCurrentUpdated phases cur)).length = 0
    · rw [if_pos h0, flatten_map_stepId, flatten_map_stepId]
      exact hids_u
    · rw [if_neg h0]
      by_cases h1 : firstIncompleteIndex (flatten (removeCurrentUpdated phases cur)) = -1
      · rw [if_pos h1, flatten_map_stepId, flatten_map_stepId]
        exact hids_u
      · rw [if_neg h1, ids_setFocus, flatten_map_stepId, flatten_map_stepId]
        exact hids_u
  · intro hempty
    rw [hunfold]
    have h0 : (flatten (removeCurrentUpdated phases cur)).length = 0 := by
      rw [hempty]
      rfl
    rw [if_pos h0]
    exact hempty
  · intro h1
    rw [hunfold]
    by_cases h0 : (flatten (removeCurrentUpdated phases cur)).length = 0
    · rw [if_pos h0]
      simp only [currentRef]
      rw [if_pos h0]
    · rw [if_neg h0, if_pos h1]
      simp only [currentRef]
      rw [if_neg h0]
      rw [if_pos h1]
  · intro n hn
    rw [hunfold]
    have h0 : ¬ (flatten (removeCurrentUpdated phases cur)).length = 0 := by
      intro h0
      have hempty : flatten (removeCurrentUpdated phases cur) = [] :=
        List.length_eq_zero.mp h0
      rw [hempty] at hn
      simp only [firstIncompleteIndex, jsFindIndex] at hn
      omega
    rw [if_neg h0]
    rw [if_neg (by rw [hn]; omega :
      ¬ firstIncompleteIndex (flatten (removeCurrentUpdated phases cur)) = -1)]
    rw [hn]
    exact currentRef_setFocus_firstIncomplete (removeCurrentUpdated phases cur) n hn

/-! ## Canvas drag relocation -/

theorem mapPhasesIdx_getElem? (f : Nat → Phase → Phase) :
    ∀ (l : List Phase) (k j : Nat), (mapPhasesIdx f k l)[j]? = (l[j]?).map (f (k + j)) := by
  intro l
  induction l with
  | nil => intro k j; simp [mapPhasesIdx]
  | cons p rest ih =>
      intro k j
      cases j with
      | zero => simp [mapPhasesIdx]
      | succ m =>
          simp only [mapPhasesIdx, List.getElem?_cons_succ, ih (k + 1) m]
          have e : k + 1 + m = k + (m + 1) := by omega
          rw [e]

theorem mapPhasesIdx_map_pair (f : Nat → Phase → Phase)
    (hf : ∀ i p, ((f i p).id, (f i p).name) = (p.id, p.name)) :
    ∀ (l : List Phase) (k : Nat),
      (mapPhasesIdx f k l).map (fun p => (p.id, p.name)) = l.map (fun p => (p.id, p.name)) := by
  intro l
  induction l with
  | nil => intro k; rfl
  | cons p rest ih =>
      intro k
      simp [mapPhasesIdx, hf k p, ih (k + 1)]

theorem handleDragEnd_stepAt (phases : List Phase) (stepId : String) (dx dy : ℚ)
    (ref : Canvas.FlatRef)
    (href : (Canvas.flatten phases).find? (fun r => r.stepId == stepId) = some ref)
    (pi si : Nat) :
    stepAt (Canvas.handleDragEnd phases stepId dx dy) pi si
      = (stepAt phases pi si).map (fun s =>
          if pi = ref.phaseIndex ∧ s.id = stepId
          then { s with x := some (ref.x + dx), y := some (ref.y + dy) } else s) := by
  have hunfold : Canvas.handleDragEnd phases stepId dx dy =
      mapPhasesIdx
        (fun pj p =>
          if pj = ref.phaseIndex then
            { p with steps := (p.steps.map
                (fun s => if s.id == stepId
                  then { s with x := some (ref.x + dx), y := some (ref.y + dy) } else s)) }
          else p)
        0 phases := by
    simp only [Canvas.handleDragEnd, href]
  rw [hunfold]
  simp only [stepAt, mapPhasesIdx_getElem?, Nat.zero_add]
  cases hp : phases[pi]? with
  | none => simp
  | some p =>
      simp only [Option.map_some', Option.some_bind]
      by_cases hpi : pi = ref.phaseIndex
      · rw [if_pos hpi]
        simp only [List.getElem?_map]
        cases hst : p.steps[si]? with
        | none => simp
        | some st =>
            simp only [Option.map_some', Option.some_inj]
            by_cases hid : st.id = stepId
            · rw [if_pos (by simp [hid]), if_pos ⟨hpi, hid⟩]
            · rw [if_neg (by simp [hid]), if_neg (by simp [hid])]
      · rw [if_neg hpi]
        cases hst : p.steps[si]? with
        | none => simp
        | some st =>
            simp only [Option.map_some', Option.some_inj]
            rw [if_neg (by simp [hpi])]

theorem le_foldl_max :
    ∀ (l : List ℚ) (a : ℚ), a ≤ l.foldl max a ∧ ∀ x ∈ l, x ≤ l.foldl max a := by
  intro l
  induction l with
  | nil => intro a; exact ⟨le_refl a, by simp⟩
  | cons b rest ih =>
      intro a
      have h1 := ih (max a b)
      refine ⟨le_trans (le_max_left a b) h1.1, ?_⟩
      intro x hx
      rcases List.mem_cons.mp hx with rfl | hx'
      · exact le_trans (le_max_right a x) h1.1
      · exact h1.2 x hx'

theorem le_listMax (l : List ℚ) (x : ℚ) (hx : x ∈ l) : x ≤ Canvas.listMax l := by
  cases l with
  | nil => simp at hx
  | cons a rest =>
      rcases List.mem_cons.mp hx with rfl | hx'
      · exact (le_foldl_max rest x).1
      · exact (le_foldl_max rest a).2 x hx'

theorem canvasBounds_contains (flat : List Canvas.FlatRef) (r : Canvas.FlatRef) (hr : r ∈ flat) :
    r.x + 400 ≤ (Canvas.canvasBounds flat).1 ∧ r.y + 200 ≤ (Canvas.canvasBounds flat).2 := by
  have hne : ¬ flat.length = 0 := by
    cases flat
    · simp at hr
    · simp
  unfold Canvas.canvasBounds
  rw [if_neg hne]
  constructor
  · have hmem : r.x ∈ flat.map (fun s => s.x) := List.mem_map.mpr ⟨r, hr, rfl⟩
    have := le_listMax _ _ hmem
    calc r.x + 400 ≤ Canvas.listMax (flat.map (fun s => s.x)) + 400 := by linarith
      _ ≤ _ := le_max_right _ _
  · have hmem : r.y ∈ flat.map (fun s => s.y) := List.mem_map.mpr ⟨r, hr, rfl⟩
    have := le_listMax _ _ hmem
    calc r.y + 200 ≤ Canvas.listMax (flat.map (fun s => s.y)) + 200 := by linarith
      _ ≤ _ := le_max_right _ _

/-- C10: the drag-end handler changes at most the dragged step — when the
dragged id does not resolve in the flattened snapshot the state is returned
unchanged; when it resolves, phase ids/names and the whole structure are
preserved and every step position holds exactly its old step, except that
steps with the dragged id inside the resolved phase get `x`/`y` replaced by
the resolved position plus the delta (id, text and completed untouched). -/
theorem handleDragEnd_frame (phases : List Phase) (stepId : String) (dx dy : ℚ) :
    ((Canvas.flatten phases).find? (fun r => r.stepId == stepId) = none →
      Canvas.handleDragEnd phases stepId dx dy = phases) ∧
    (∀ ref, (Canvas.flatten phases).find? (fun r => r.stepId == stepId) = some ref →
      ((Canvas.handleDragEnd phases stepId dx dy).map (fun p => (p.id, p.name))
        = phases.map (fun p => (p.id, p.name))) ∧
      ∀ pi si : Nat, stepAt (Canvas.handleDragEnd phases stepId dx dy) pi si
        = (stepAt phases pi si).map (fun s =>
            if pi = ref.phaseIndex ∧ s.id = stepId
            then { s with x := some (ref.x + dx), y := some (ref.y + dy) } else s)) := by
  constructor
  · intro hnone
    simp only [Canvas.handleDragEnd, hnone]
  · intro ref href
    constructor
    · rw [show Canvas.handleDragEnd phases stepId dx dy =
          mapPhasesIdx
            (fun pj p =>
              if pj = ref.phaseIndex then
                { p with steps := (p.steps.map
                    (fun s => if s.id == stepId
                      then { s with x := some (ref.x + dx), y := some (ref.y + dy) } else s)) }
              else p)
            0 phases from by simp only [Canvas.handleDragEnd, href]]
      refine mapPhasesIdx_map_pair _ ?_ phases 0
      intro i p
      by_cases hpi : i = ref.phaseIndex
      · simp [hpi]
      · simp [hpi]
    · intro pi si
      exact handleDragEnd_stepAt phases stepId dx dy ref href pi si

/-- The single-step roadmap used to exhibit that drag relocation performs no
clamping. -/
def dragCexPhases : List Phase :=
  [{ id := "p", name := "Ph", steps :=
      [{ id := "a", text := "A", completed := false, x := some 400, y := some 100 }] }]

/-- C6 counterexample: dragging the only step (at logical `x = 400`, canvas
width `1200`) by `Δx = 1000000` stores `x = 1000400`, far outside the canvas
bounds at drag time minus any nonnegative margin — the handler does not
clamp. -/
theorem handleDragEnd_no_clamp_cex :
    (stepAt (Canvas.handleDragEnd dragCexPhases "a" 1000000 0) 0 0).map (fun s => s.x)
      = some (some 1000400) ∧
    (Canvas.canvasBounds (Canvas.flatten dragCexPhases)).1 = 1200 ∧
    ¬ ((1000400 : ℚ) ≤ 1200) := by
  refine ⟨?_, ?_, by norm_num⟩
  · norm_num [dragCexPhases, Canvas.handleDragEnd, Canvas.flatten, Canvas.flattenAux,
      Canvas.flattenSteps, stepAt, mapPhasesIdx, List.find?]
  · norm_num [dragCexPhases, Canvas.canvasBounds, Canvas.flatten, Canvas.flattenAux,
      Canvas.flattenSteps, Canvas.listMax]

/-- C6 (amended): drag relocation applies no clamping — the dragged step's
stored position is exactly the resolved old position plus the delta — and
instead the virtual canvas bounds, being recomputed from content plus the
item footprint `(400, 200)`, always contain every position including the
new one. -/
theorem handleDragEnd_unclamped (phases : List Phase) (stepId : String) (dx dy : ℚ)
    (ref : Canvas.FlatRef)
    (href : (Canvas.flatten phases).find? (fun r => r.stepId == stepId) = some ref) :
    (∀ (si : Nat) (st : Step),
        stepAt (Canvas.handleDragEnd phases stepId dx dy) ref.phaseIndex si = some st →
        st.id = stepId → st.x = some (ref.x + dx) ∧ st.y = some (ref.y + dy)) ∧
    (∀ r ∈ Canvas.flatten (Canvas.handleDragEnd phases stepId dx dy),
        r.x + 400 ≤ (Canvas.canvasBounds
          (Canvas.flatten (Canvas.handleDragEnd phases stepId dx dy))).1 ∧
        r.y + 200 ≤ (Canvas.canvasBounds
          (Canvas.flatten (Canvas.handleDragEnd phases stepId dx dy))).2) := by
  constructor
  · intro si st hst hid
    rw [handleDragEnd_stepAt phases stepId dx dy ref href ref.phaseIndex si] at hst
    cases hs0 : stepAt phases ref.phaseIndex si with
    | none => rw [hs0] at hst; simp at hst
    | some s0 =>
        rw [hs0] at hst
        simp only [Option.map_some', Option.some_inj] at hst
        by_cases hid0 : s0.id = stepId
        · rw [if_pos ⟨trivial, hid0⟩] at hst
          rw [← hst]
          exact ⟨rfl, rfl⟩
        · rw [if_neg (by simp [hid0])] at hst
          exact absurd (hst ▸ hid) hid0
  · intro r hr
    exact canvasBounds_contains _ r hr

/-- C8: assuming the zoom invariant `0.3 ≤ zoom ≤ 2` (established by the
initial value `1`), every zoom operation — zoom in, zoom out, wheel zoom,
reset — keeps the zoom inside `[0.3, 2]`, and none of them touches the
roadmap (hence no step's logical position). -/
theorem zoom_bounded (st : Canvas.CanvasState) (deltaY : ℚ) (ctrl : Bool)
    (h1 : (3 : ℚ)/10 ≤ st.zoom) (h2 : st.zoom ≤ 2) :
    ((3 : ℚ)/10 ≤ (Canvas.handleZoomIn st).zoom ∧ (Canvas.handleZoomIn st).zoom ≤ 2) ∧
    ((3 : ℚ)/10 ≤ (Canvas.handleZoomOut st).zoom ∧ (Canvas.handleZoomOut st).zoom ≤ 2) ∧
    ((3 : ℚ)/10 ≤ (Canvas.handleResetZoom st).zoom ∧ (Canvas.handleResetZoom st).zoom ≤ 2) ∧
    ((3 : ℚ)/10 ≤ (Canvas.handleWheel st deltaY ctrl).zoom ∧
      (Canvas.handleWheel st deltaY ctrl).zoom ≤ 2) ∧
    (Canvas.handleZoomIn st).phases = st.phases ∧
    (Canvas.handleZoomOut st).phases = st.phases ∧
    (Canvas.handleResetZoom st).phases = st.phases ∧
    (Canvas.handleWheel st deltaY ctrl).phases = st.phases ∧
    (3 : ℚ)/10 ≤ Canvas.initialZoom ∧ Canvas.initialZoom ≤ 2 := by
  unfold Canvas.handleZoomIn Canvas.handleZoomOut Canvas.handleResetZoom Canvas.handleWheel
    Canvas.initialZoom
  refine ⟨⟨le_min (by linarith) (by norm_num), min_le_right _ _⟩,
    ⟨le_max_right _ _, max_le (by linarith) (by norm_num)⟩,
    ⟨by norm_num, by norm_num⟩, ⟨?_, ?_⟩, rfl, rfl, rfl, ?_, by norm_num, by norm_num⟩
  · cases ctrl with
    | false => simpa using h1
    | true => simp only [if_pos rfl]; exact le_max_left _ _
  · cases ctrl with
    | false => simpa using h2
    | true => simp only [if_pos rfl]; exact max_le (by norm_num) (min_le_left _ _)
  · cases ctrl with
    | false => rfl
    | true => rfl

/-! ## Concrete roadmaps for counterexamples and witnesses -/

/-- A roadmap with a non-monotonic ("gapped") completion assignment:
`[a ✗, b ✗, c ✓]`. -/
def exPhasesGap : List Phase :=
  [{ id := "p", name := "Ph", steps :=
      [{ id := "a", text := "A", completed := false, x := none, y := none },
       { id := "b", text := "B", completed := false, x := none, y := none },
       { id := "c", text := "C", completed := true, x := none, y := none }] }]

/-- The scenario roadmap `[a(done), b(current), c]`. -/
def exPhasesABC : List Phase :=
  [{ id := "p", name := "Ph", steps :=
      [{ id := "a", text := "A", completed := true, x := none, y := none },
       { id := "b", text := "B", completed := false, x := none, y := none },
       { id := "c", text := "C", completed := false, x := none, y := none }] }]

/-- The flattened reference of step `b` in `exPhasesABC` (the current step). -/
def exRefB : FlatRef :=
  { phaseIndex := 0, stepIndex := 1, phaseId := "p", stepId := "b", phaseName := "Ph"
    text := "B", completed := false, linearIndex := 1 }

/-- The flattened reference of the only step of `dragCexPhases`. -/
def dragRefA : Canvas.FlatRef :=
  { phaseIndex := 0, stepIndex := 0, phaseId := "p", stepId := "a", phaseName := "Ph"
    text := "A", completed := false, x := 400, y := 100 }

/-- The canvas component state right after mount: `zoom = 1`, `pan = (0,0)`. -/
def exCanvasState : Canvas.CanvasState :=
  { phases := [], zoom := 1, pan := (0, 0) }

/-- C2 counterexample: on the non-monotonic roadmap `[a ✗, b ✗, c ✓]` (focus
index 0), `completeCurrent` ends with flags `[✓, ✗, ✗]` — step `c`, whose
linear index 2 exceeds the focus index 0, was completed before the call and
is not completed after it, so later steps are not left untouched and the
completed set shrinks. -/
theorem completeCurrent_gap_cex :
    firstIncompleteIndex (flatten exPhasesGap) = 0 ∧
    ((flatten exPhasesGap)[2]?).map (fun r => r.completed) = some true ∧
    ((flatten (completeCurrent exPhasesGap))[2]?).map (fun r => r.completed) = some false ∧
    ¬ ((2 : Int) ≤ (0 : Int)) := by
  refine ⟨by decide, by decide, by decide, by omega⟩

/-- C2 witness: the amended statement holds on the monotone scenario roadmap
`[a ✓, b ✗, c ✗]` with current step `b`. -/
theorem completeCurrent_monotone_spec_witness :
    currentRef exPhasesABC = some exRefB ∧
    ((flatten exPhasesABC).map (fun r => r.stepId)).Nodup ∧
    frontierShaped ((flatten exPhasesABC).map (fun r => r.completed)) = true ∧
    flatten (completeCurrent exPhasesABC) =
      (flatten exPhasesABC).map (fun r =>
        { r with completed :=
            r.completed ||
              decide ((r.linearIndex : Int) ≤ firstIncompleteIndex (flatten exPhasesABC)) }) :=
  ⟨by decide, by decide, by decide,
    completeCurrent_monotone_spec exPhasesABC exRefB (by decide) (by decide) (by decide)⟩

/-- C3 counterexample: on `[a ✓, b(current), c]`, inserting before the
current step and re-deriving the focus yields the new step `"n"`, not the
previously focused `"b"` — the claim's focus-identity preservation fails for
insert-before. -/
theorem addStepBefore_refocus_cex :
    (currentRef exPhasesABC).map (fun r => r.stepId) = some "b" ∧
    (currentRef (addStepBefore exPhasesABC exRefB "n")).map (fun r => r.stepId) = some "n" ∧
    ¬ (("n" : String) = "b") := by
  refine ⟨by decide, by decide, by decide⟩

/-- C3 witness: the amended statement holds on the scenario roadmap with
current step `b` and inserted id `"n"`. -/
theorem insertStep_spec_witness :
    currentRef exPhasesABC = some exRefB ∧
    (stepTriples (addStepBefore exPhasesABC exRefB "n")
      = (stepTriples exPhasesABC).take exRefB.linearIndex
          ++ ("n", "New step", false) :: (stepTriples exPhasesABC).drop exRefB.linearIndex ∧
     stepTriples (addStepAfter exPhasesABC exRefB "n")
      = (stepTriples exPhasesABC).take (exRefB.linearIndex + 1)
          ++ ("n", "New step", false) :: (stepTriples exPhasesABC).drop (exRefB.linearIndex + 1) ∧
     (currentRef (addStepAfter exPhasesABC exRefB "n")).map (fun r => r.stepId)
        = some exRefB.stepId ∧
     (currentRef (addStepBefore exPhasesABC exRefB "n")).map (fun r => r.stepId) = some "n") :=
  ⟨by decide, insertStep_spec exPhasesABC exRefB "n" (by decide)⟩

/-- C4 witness: removing current step `b` from `[a(done), b(current), c]`
keeps exactly the ids `a, c` and the re-derived current step is `c`. -/
theorem removeCurrent_spec_witness :
    currentRef exPhasesABC = some exRefB ∧
    ((flatten exPhasesABC).map (fun r => r.stepId)).Nodup ∧
    (flatten (removeCurrent exPhasesABC)).map (fun r => r.stepId)
      = ((flatten exPhasesABC).map (fun r => r.stepId)).filter (fun i => !(i == exRefB.stepId)) ∧
    (currentRef (removeCurrent exPhasesABC)).map (fun r => r.stepId) = some "c" :=
  ⟨by decide, by decide,
    (removeCurrent_spec exPhasesABC exRefB (by decide) (by decide)).1,
    by decide⟩

/-- C6 witness: on the single-step roadmap, the dragged step's stored
position is exactly the resolved position plus the delta. -/
theorem handleDragEnd_unclamped_witness :
    ((Canvas.flatten dragCexPhases).find? (fun r => r.stepId == "a") = some dragRefA) ∧
    (stepAt (Canvas.handleDragEnd dragCexPhases "a" 1000000 0) dragRefA.phaseIndex 0
      = some { id := "a", text := "A", completed := false, x := some 1000400, y := some 100 }) ∧
    (({ id := "a", text := "A", completed := false,
        x := some 1000400, y := some 100 } : Step).x = some (dragRefA.x + 1000000) ∧
     ({ id := "a", text := "A", completed := false,
        x := some 1000400, y := some 100 } : Step).y = some (dragRefA.y + 0)) := by
  have hfind : (Canvas.flatten dragCexPhases).find? (fun r => r.stepId == "a")
      = some dragRefA := by decide
  have hstep : stepAt (Canvas.handleDragEnd dragCexPhases "a" 1000000 0) dragRefA.phaseIndex 0
      = some { id := "a", text := "A", completed := false, x := some 1000400, y := some 100 } := by
    norm_num [dragCexPhases, dragRefA, Canvas.handleDragEnd, Canvas.flatten, Canvas.flattenAux,
      Canvas.flattenSteps, stepAt, mapPhasesIdx, List.find?]
  exact ⟨hfind, hstep,
    (handleDragEnd_unclamped dragCexPhases "a" 1000000 0 dragRefA hfind).1 0 _ hstep rfl⟩

/-- C8 witness: the invariant holds at the initial state and is preserved by
a wheel zoom with ctrl held. -/
theorem zoom_bounded_witness :
    ((3 : ℚ)/10 ≤ exCanvasState.zoom ∧ exCanvasState.zoom ≤ 2) ∧
    (((3 : ℚ)/10 ≤ (Canvas.handleZoomIn exCanvasState).zoom ∧
        (Canvas.handleZoomIn exCanvasState).zoom ≤ 2) ∧
      ((3 : ℚ)/10 ≤ (Canvas.handleZoomOut exCanvasState).zoom ∧
        (Canvas.handleZoomOut exCanvasState).zoom ≤ 2) ∧
      ((3 : ℚ)/10 ≤ (Canvas.handleResetZoom exCanvasState).zoom ∧
        (Canvas.handleResetZoom exCanvasState).zoom ≤ 2) ∧
      ((3 : ℚ)/10 ≤ (Canvas.handleWheel exCanvasState 1 true).zoom ∧
        (Canvas.handleWheel exCanvasState 1 true).zoom ≤ 2) ∧
      (Canvas.handleZoomIn exCanvasState).phases = exCanvasState.phases ∧
      (Canvas.handleZoomOut exCanvasState).phases = exCanvasState.phases ∧
      (Canvas.handleResetZoom exCanvasState).phases = exCanvasState.phases ∧
      (Canvas.handleWheel exCanvasState 1 true).phases = exCanvasState.phases ∧
      (3 : ℚ)/10 ≤ Canvas.initialZoom ∧ Canvas.initialZoom ≤ 2) :=
  ⟨⟨by norm_num [exCanvasState], by norm_num [exCanvasState]⟩,
    zoom_bounded exCanvasState 1 true (by norm_num [exCanvasState])
      (by norm_num [exCanvasState])⟩

/-- C10 witness: the per-position frame equation instantiated on the
single-step roadmap and a huge delta. -/
theorem handleDragEnd_frame_witness :
    stepAt (Canvas.handleDragEnd dragCexPhases "a" 1000000 0) 0 0
      = (stepAt dragCexPhases 0 0).map (fun s =>
          if 0 = dragRefA.phaseIndex ∧ s.id = "a"
          then { s with x := some (dragRefA.x + 1000000), y := some (dragRefA.y + 0) } else s) := by
  have hfind : (Canvas.flatten dragCexPhases).find? (fun r => r.stepId == "a")
      = some dragRefA := by decide
  exact ((handleDragEnd_frame dragCexPhases "a" 1000000 0).2 dragRefA hfind).2 0 0
